/-
Verification of the nixpkgs-update-pypi-releases updater (`main.py`).

The development shallowly embeds the program's core logic:

* the PEP 440 version values produced by `packaging.version.Version`
  (parsing, the comparison key, `is_prerelease`), which the program
  subclasses as its `Version`;
* the candidate filtering performed through
  `packaging.specifiers.SpecifierSet.filter` inside
  `_determine_latest_version`;
* the regex-based attribute extraction (`_get_values`,
  `_get_unique_value`);
* the per-package pipeline `_print_new_version` / `_update` and the
  batch driver `main`.

Theorems at the end settle the specification claims.
-/
import Mathlib

set_option maxHeartbeats 1600000

namespace PypiReleases

/-! ## Ordering infrastructure

Python compares the `packaging` comparison keys as nested tuples.  We
model this with explicit three-way comparison functions and prove that
each is a lawful total comparison. -/

/-- Three-way comparison of natural numbers (Python `int` comparison on
the non-negative values occurring in version keys). -/
def natCmp (a b : Nat) : Ordering :=
  if a < b then .lt else if a = b then .eq else .gt

/-- Lexicographic comparison of lists, with Python tuple semantics:
a proper initial segment compares less than the longer tuple. -/
def lexCmp (cmp : α → α → Ordering) : List α → List α → Ordering
  | [], [] => .eq
  | [], _ :: _ => .lt
  | _ :: _, [] => .gt
  | a :: as, b :: bs => (cmp a b).then (lexCmp cmp as bs)

/-- Comparison of pairs, first component dominant (Python tuple order). -/
def prodCmp (cf : α → α → Ordering) (cs : β → β → Ordering) :
    α × β → α × β → Ordering
  | (a, b), (c, d) => (cf a c).then (cs b d)

/-- Comparison on options where `none` is least (models Python
`NegativeInfinity` sentinels). -/
def botOptCmp (cmp : α → α → Ordering) : Option α → Option α → Ordering
  | none, none => .eq
  | none, some _ => .lt
  | some _, none => .gt
  | some a, some b => cmp a b

/-- Comparison on options where `none` is greatest (models Python
`Infinity` sentinels). -/
def topOptCmp (cmp : α → α → Ordering) : Option α → Option α → Ordering
  | none, none => .eq
  | none, some _ => .gt
  | some _, none => .lt
  | some a, some b => cmp a b

/-- Comparison on sums where every left value is below every right
value (models Python local segments: string segments sort below
integer segments). -/
def sumCmp (cl : α → α → Ordering) (cr : β → β → Ordering) :
    α ⊕ β → α ⊕ β → Ordering
  | .inl a, .inl b => cl a b
  | .inl _, .inr _ => .lt
  | .inr _, .inl _ => .gt
  | .inr a, .inr b => cr a b

/-- A lawful three-way comparison: antisymmetric as a relation,
transitive on strict comparisons, and whose `eq` coincides with
equality.  These are the facts Python's total tuple order provides. -/
structure LawfulCmp (cmp : α → α → Ordering) : Prop where
  symm : ∀ a b, cmp a b = (cmp b a).swap
  lt_trans : ∀ {a b c}, cmp a b = .lt → cmp b c = .lt → cmp a c = .lt
  eq_iff : ∀ a b, cmp a b = .eq ↔ a = b

theorem swap_then (x y : Ordering) : (x.then y).swap = x.swap.then y.swap := by
  cases x <;> rfl

theorem then_eq_lt {x y : Ordering} :
    x.then y = .lt ↔ x = .lt ∨ (x = .eq ∧ y = .lt) := by
  cases x <;> simp [Ordering.then]

theorem then_eq_eq {x y : Ordering} :
    x.then y = .eq ↔ x = .eq ∧ y = .eq := by
  cases x <;> simp [Ordering.then]

theorem natCmp_lt_of {a b : Nat} (h : a < b) : natCmp a b = .lt := by
  unfold natCmp; rw [if_pos h]

theorem natCmp_eq_of {a b : Nat} (h : a = b) : natCmp a b = .eq := by
  unfold natCmp; rw [if_neg (by omega), if_pos h]

theorem natCmp_gt_of {a b : Nat} (h : b < a) : natCmp a b = .gt := by
  unfold natCmp; rw [if_neg (by omega), if_neg (by omega)]

theorem natCmp_eq_lt {a b : Nat} : natCmp a b = .lt ↔ a < b := by
  constructor
  · intro h
    rcases Nat.lt_trichotomy a b with hh | hh | hh
    · exact hh
    · rw [natCmp_eq_of hh] at h; cases h
    · rw [natCmp_gt_of hh] at h; cases h
  · exact natCmp_lt_of

theorem natCmp_eq_eq {a b : Nat} : natCmp a b = .eq ↔ a = b := by
  constructor
  · intro h
    rcases Nat.lt_trichotomy a b with hh | hh | hh
    · rw [natCmp_lt_of hh] at h; cases h
    · exact hh
    · rw [natCmp_gt_of hh] at h; cases h
  · exact natCmp_eq_of

theorem natCmp_eq_gt {a b : Nat} : natCmp a b = .gt ↔ b < a := by
  constructor
  · intro h
    rcases Nat.lt_trichotomy a b with hh | hh | hh
    · rw [natCmp_lt_of hh] at h; cases h
    · rw [natCmp_eq_of hh] at h; cases h
    · exact hh
  · exact natCmp_gt_of

theorem natCmp_lawful : LawfulCmp natCmp := by
  refine ⟨?_, ?_, fun a b => natCmp_eq_eq⟩
  · intro a b
    rcases Nat.lt_trichotomy a b with h | h | h
    · rw [natCmp_eq_lt.mpr h, natCmp_eq_gt.mpr h]; rfl
    · rw [natCmp_eq_eq.mpr h, natCmp_eq_eq.mpr h.symm]; rfl
    · rw [natCmp_eq_gt.mpr h, natCmp_eq_lt.mpr h]; rfl
  · intro a b c h1 h2
    exact natCmp_eq_lt.mpr (Nat.lt_trans (natCmp_eq_lt.mp h1) (natCmp_eq_lt.mp h2))

theorem lawful_pullback {cmp : α → α → Ordering} (f : β → α)
    (hinj : ∀ x y, f x = f y → x = y) (h : LawfulCmp cmp) :
    LawfulCmp (fun x y => cmp (f x) (f y)) := by
  refine ⟨fun a b => h.symm _ _, fun h1 h2 => h.lt_trans h1 h2, ?_⟩
  intro a b
  constructor
  · intro hh; exact hinj _ _ ((h.eq_iff _ _).mp hh)
  · intro hh; subst hh; exact (h.eq_iff _ _).mpr rfl

theorem prodCmp_lawful {cf : α → α → Ordering} {cs : β → β → Ordering}
    (hf : LawfulCmp cf) (hs : LawfulCmp cs) : LawfulCmp (prodCmp cf cs) := by
  constructor
  · rintro ⟨a, b⟩ ⟨c, d⟩
    show (cf a c).then (cs b d) = ((cf c a).then (cs d b)).swap
    rw [swap_then, ← hf.symm, ← hs.symm]
  · rintro ⟨a, b⟩ ⟨c, d⟩ ⟨e, g⟩ h1 h2
    replace h1 : (cf a c).then (cs b d) = .lt := h1
    replace h2 : (cf c e).then (cs d g) = .lt := h2
    show (cf a e).then (cs b g) = .lt
    rw [then_eq_lt] at h1 h2 ⊢
    rcases h1 with h1 | ⟨h1, h1'⟩ <;> rcases h2 with h2 | ⟨h2, h2'⟩
    · exact Or.inl (hf.lt_trans h1 h2)
    · rw [(hf.eq_iff _ _).mp h2] at h1; exact Or.inl h1
    · rw [(hf.eq_iff _ _).mp h1]; exact Or.inl h2
    · rw [(hf.eq_iff _ _).mp h1, (hf.eq_iff _ _).mp h2]
      exact Or.inr ⟨(hf.eq_iff _ _).mpr rfl, hs.lt_trans h1' h2'⟩
  · rintro ⟨a, b⟩ ⟨c, d⟩
    show (cf a c).then (cs b d) = .eq ↔ _
    rw [then_eq_eq, hf.eq_iff, hs.eq_iff]
    constructor
    · rintro ⟨h1, h2⟩; simp [h1, h2]
    · intro hh; cases hh; exact ⟨rfl, rfl⟩

theorem lexCmp_lawful {cmp : α → α → Ordering} (h : LawfulCmp cmp) :
    LawfulCmp (lexCmp cmp) := by
  constructor
  · intro a
    induction a with
    | nil => intro b; cases b <;> rfl
    | cons x xs ih =>
      intro b
      cases b with
      | nil => rfl
      | cons y ys =>
        show (cmp x y).then (lexCmp cmp xs ys) = ((cmp y x).then (lexCmp cmp ys xs)).swap
        rw [swap_then, ← h.symm, ← ih]
  · intro a
    induction a with
    | nil =>
      intro b c h1 h2
      cases b with
      | nil => exact absurd h1 (by simp [lexCmp])
      | cons y ys =>
        cases c with
        | nil => exact absurd h2 (by simp [lexCmp])
        | cons z zs => simp [lexCmp]
    | cons x xs ih =>
      intro b c h1 h2
      cases b with
      | nil => exact absurd h1 (by simp [lexCmp])
      | cons y ys =>
        cases c with
        | nil => exact absurd h2 (by simp [lexCmp])
        | cons z zs =>
          show (cmp x z).then (lexCmp cmp xs zs) = .lt
          rw [show lexCmp cmp (x :: xs) (y :: ys) = (cmp x y).then (lexCmp cmp xs ys) from rfl,
            then_eq_lt] at h1
          rw [show lexCmp cmp (y :: ys) (z :: zs) = (cmp y z).then (lexCmp cmp ys zs) from rfl,
            then_eq_lt] at h2
          rw [then_eq_lt]
          rcases h1 with h1 | ⟨h1, h1'⟩ <;> rcases h2 with h2 | ⟨h2, h2'⟩
          · exact Or.inl (h.lt_trans h1 h2)
          · rw [(h.eq_iff _ _).mp h2] at h1; exact Or.inl h1
          · rw [(h.eq_iff _ _).mp h1]; exact Or.inl h2
          · rw [(h.eq_iff _ _).mp h1, (h.eq_iff _ _).mp h2]
            exact Or.inr ⟨(h.eq_iff _ _).mpr rfl, ih h1' h2'⟩
  · intro a
    induction a with
    | nil => intro b; cases b <;> simp [lexCmp]
    | cons x xs ih =>
      intro b
      cases b with
      | nil => simp [lexCmp]
      | cons y ys =>
        show (cmp x y).then (lexCmp cmp xs ys) = .eq ↔ _
        rw [then_eq_eq, h.eq_iff, ih]
        constructor
        · rintro ⟨h1, h2⟩; simp [h1, h2]
        · intro hh
          injection hh with hh1 hh2
          exact ⟨hh1, hh2⟩

theorem botOptCmp_lawful {cmp : α → α → Ordering} (h : LawfulCmp cmp) :
    LawfulCmp (botOptCmp cmp) := by
  constructor
  · intro a b; cases a <;> cases b <;> first | rfl | exact h.symm _ _
  · intro a b c h1 h2
    cases a <;> cases b <;> cases c <;> simp_all [botOptCmp]
    exact h.lt_trans h1 h2
  · intro a b
    cases a <;> cases b <;> simp [botOptCmp, h.eq_iff]

theorem topOptCmp_lawful {cmp : α → α → Ordering} (h : LawfulCmp cmp) :
    LawfulCmp (topOptCmp cmp) := by
  constructor
  · intro a b; cases a <;> cases b <;> first | rfl | exact h.symm _ _
  · intro a b c h1 h2
    cases a <;> cases b <;> cases c <;> simp_all [topOptCmp]
    exact h.lt_trans h1 h2
  · intro a b
    cases a <;> cases b <;> simp [topOptCmp, h.eq_iff]

theorem sumCmp_lawful {cl : α → α → Ordering} {cr : β → β → Ordering}
    (h1 : LawfulCmp cl) (h2 : LawfulCmp cr) : LawfulCmp (sumCmp cl cr) := by
  constructor
  · intro a b; cases a <;> cases b <;> first | rfl | exact h1.symm _ _ | exact h2.symm _ _
  · intro a b c ha hb
    cases a <;> cases b <;> cases c <;> simp_all [sumCmp]
    · exact h1.lt_trans ha hb
    · exact h2.lt_trans ha hb
  · intro a b
    cases a <;> cases b <;> simp [sumCmp, h1.eq_iff, h2.eq_iff]

/-- Derived: reflexivity. -/
theorem LawfulCmp.refl {cmp : α → α → Ordering} (h : LawfulCmp cmp) (a : α) :
    cmp a a = .eq := (h.eq_iff a a).mpr rfl

/-- Derived: `gt` is the mirror of `lt`. -/
theorem LawfulCmp.gt_iff_lt {cmp : α → α → Ordering} (h : LawfulCmp cmp) (a b : α) :
    cmp a b = .gt ↔ cmp b a = .lt := by
  rw [h.symm a b]
  cases cmp b a <;> simp [Ordering.swap]

/-! ## PEP 440 version values

`main.py` subclasses `packaging.version.Version`; parsing and ordering
below are translated from `packaging/version.py` (the `VERSION_PATTERN`
regular expression, `_parse_letter_version`, `_parse_local_version` and
`_cmpkey`).  The regex is matched with surrounding-whitespace stripping
and case folding (`re.IGNORECASE`); `\s` is modelled on its ASCII
range, which covers every string the program manipulates. -/

def isPySpace (c : Char) : Bool :=
  c = ' ' || c = '\t' || c = '\n' || c = '\r' || c = '\x0b' || c = '\x0c'

def toLowerCh (c : Char) : Char :=
  if 'A' ≤ c && c ≤ 'Z' then Char.ofNat (c.toNat + 32) else c

def isDigitCh (c : Char) : Bool := '0' ≤ c && c ≤ '9'

def isAlnumCh (c : Char) : Bool := isDigitCh c || ('a' ≤ c && c ≤ 'z')

/-- Decimal value of a digit run (`int(...)` on the matched group). -/
def digitsToNat (ds : List Char) : Nat :=
  ds.foldl (fun a c => 10 * a + (c.toNat - 48)) 0

/-- Normalized pre-release letters (`_parse_letter_version` maps
`alpha` to `a`, `beta` to `b`, and `c`/`pre`/`preview` to `rc`); their
comparison key order is the Python string order `"a" < "b" < "rc"`. -/
inductive PreTag | a | b | rc
deriving DecidableEq, Repr

/-- One segment of a local version: either an alphanumeric segment
(compares below every numeric segment) or a numeric segment. -/
abbrev LocalSeg := List Char ⊕ Nat

/-- The result of `packaging.version.Version(raw)`: the raw string the
program preserves in `raw_version`, plus the parsed `_version` fields. -/
structure PyVersion where
  raw : String
  epoch : Nat
  release : List Nat
  pre : Option (PreTag × Nat)
  post : Option Nat
  dev : Option Nat
  localSegs : Option (List LocalSeg)
deriving DecidableEq, Repr

/-- Parsed fields before the raw string is attached. -/
structure PyCore where
  epoch : Nat
  release : List Nat
  pre : Option (PreTag × Nat)
  post : Option Nat
  dev : Option Nat
  localSegs : Option (List LocalSeg)
deriving DecidableEq, Repr

/-- Strip surrounding whitespace (the `^\s*` and `\s*$` anchors of the
compiled pattern). -/
def trimWs (s : List Char) : List Char :=
  ((s.dropWhile isPySpace).reverse.dropWhile isPySpace).reverse

/-- Optional `v` marker at the front of the pattern. -/
def dropV : List Char → List Char
  | 'v' :: rest => rest
  | s => s

/-- The optional epoch group `(?:([0-9]+)!)?`. -/
def parseEpoch (s : List Char) : Nat × List Char :=
  let p := s.span isDigitCh
  match p.2 with
  | '!' :: r2 => if p.1.isEmpty then (0, s) else (digitsToNat p.1, r2)
  | _ => (0, s)

/-- Further `(?:\.[0-9]+)*` groups of the release segment. -/
def moreReleaseAux : Nat → List Char → List Nat × List Char
  | 0, s => ([], s)
  | fuel + 1, s =>
    match s with
    | '.' :: rest =>
      let p := rest.span isDigitCh
      if p.1.isEmpty then ([], s)
      else
        let q := moreReleaseAux fuel p.2
        (digitsToNat p.1 :: q.1, q.2)
    | _ => ([], s)

/-- Release segment continuation on the result of the leading digit
span. -/
def parseReleaseRest (p : List Char × List Char) : Option (List Nat × List Char) :=
  if p.1.isEmpty then none
  else
    some (digitsToNat p.1 :: (moreReleaseAux p.2.length p.2).1,
      (moreReleaseAux p.2.length p.2).2)

/-- The mandatory release segment `[0-9]+(?:\.[0-9]+)*`. -/
def parseRelease (s : List Char) : Option (List Nat × List Char) :=
  parseReleaseRest (s.span isDigitCh)

/-- Try alternatives in regex priority order, committing to the first
one whose continuation succeeds (regex backtracking). -/
def firstSome : List α → (α → Option β) → Option β
  | [], _ => none
  | x :: xs, f =>
    match f x with
    | some b => some b
    | none => firstSome xs f

/-- Both readings of an optional separator `[-_\.]?`, the consuming
(greedy) one first. -/
def sepVariants : List Char → List (List Char)
  | [] => [[]]
  | c :: cs => if c = '-' || c = '_' || c = '.' then [cs, c :: cs] else [c :: cs]

/-- Consume an exact literal. -/
def dropLit : List Char → List Char → Option (List Char)
  | [], s => some s
  | _ :: _, [] => none
  | a :: as, c :: cs => if c = a then dropLit as cs else none

/-- Matches of a keyword alternation, in alternation order. -/
def letterVariants (kws : List (List Char)) (s : List Char) :
    List (List Char × List Char) :=
  kws.filterMap fun kw => (dropLit kw s).map fun rest => (kw, rest)

/-- Both readings of an optional number group `([0-9]+)?`, the greedy
maximal-digit-run one first. -/
def numVariants (s : List Char) : List (Option Nat × List Char) :=
  let p := s.span isDigitCh
  if p.1.isEmpty then [(none, s)] else [(some (digitsToNat p.1), p.2), (none, s)]

/-- The `pre_l` alternation `alpha|a|beta|b|preview|pre|c|rc`. -/
def preKws : List (List Char) :=
  (["alpha", "a", "beta", "b", "preview", "pre", "c", "rc"]).map String.toList

/-- The `post_l` alternation `post|rev|r`. -/
def postKws : List (List Char) :=
  (["post", "rev", "r"]).map String.toList

/-- The `dev_l` keyword. -/
def devKws : List (List Char) :=
  (["dev"]).map String.toList

/-- Spelling normalization performed by `_parse_letter_version`. -/
def normPreTag (kw : List Char) : PreTag :=
  if kw = ("alpha").toList || kw = ("a").toList then .a
  else if kw = ("beta").toList || kw = ("b").toList then .b
  else .rc

/-- All parses of the optional `pre` group in regex priority order
(ending with the group being absent).  A missing number is the
implicit `0`. -/
def preCandidates (s : List Char) : List (Option (PreTag × Nat) × List Char) :=
  ((sepVariants s).flatMap fun s1 =>
    (letterVariants preKws s1).flatMap fun kr =>
      (sepVariants kr.2).flatMap fun s3 =>
        (numVariants s3).map fun nv =>
          ((some (normPreTag kr.1, nv.1.getD 0), nv.2) :
            Option (PreTag × Nat) × List Char)) ++
  [(none, s)]

/-- The first `post` alternative `(?:-([0-9]+))` (implicit post
release syntax such as `1.0-1`). -/
def postDashCandidate (s : List Char) : List (Option Nat × List Char) :=
  match s with
  | '-' :: rest =>
    let p := rest.span isDigitCh
    if p.1.isEmpty then [] else [(some (digitsToNat p.1), p.2)]
  | _ => []

/-- All parses of the optional `post` group in regex priority order. -/
def postCandidates (s : List Char) : List (Option Nat × List Char) :=
  postDashCandidate s ++
  ((sepVariants s).flatMap fun s1 =>
    (letterVariants postKws s1).flatMap fun kr =>
      (sepVariants kr.2).flatMap fun s3 =>
        (numVariants s3).map fun nv =>
          ((some (nv.1.getD 0), nv.2) : Option Nat × List Char)) ++
  [(none, s)]

/-- All parses of the optional `dev` group in regex priority order. -/
def devCandidates (s : List Char) : List (Option Nat × List Char) :=
  ((sepVariants s).flatMap fun s1 =>
    (letterVariants devKws s1).flatMap fun kr =>
      (sepVariants kr.2).flatMap fun s3 =>
        (numVariants s3).map fun nv =>
          ((some (nv.1.getD 0), nv.2) : Option Nat × List Char)) ++
  [(none, s)]

/-- Segment classification of `_parse_local_version`: all-digit
segments become integers, others stay alphanumeric strings. -/
def mkSeg (run : List Char) : LocalSeg :=
  if run.all isDigitCh then .inr (digitsToNat run) else .inl run

/-- The local version body `[a-z0-9]+(?:[-_\.][a-z0-9]+)*`, which must
exhaust its input because only `\s*$` may follow. -/
def parseLocalAux : Nat → List Char → Option (List LocalSeg)
  | 0, _ => none
  | fuel + 1, s =>
    let p := s.span isAlnumCh
    if p.1.isEmpty then none
    else
      match p.2 with
      | [] => some [mkSeg p.1]
      | c :: more =>
        if c = '-' || c = '_' || c = '.' then
          (parseLocalAux fuel more).map fun segs => mkSeg p.1 :: segs
        else none

/-- The optional local version group `(?:\+local)?`. -/
def localCandidates (s : List Char) :
    List (Option (List LocalSeg) × List Char) :=
  match s with
  | '+' :: rest =>
    match parseLocalAux (rest.length + 1) rest with
    | some segs => [(some segs, ([] : List Char))]
    | none => []
  | _ => [(none, s)]

/-- Everything after the release segment, requiring the whole input to
be consumed (the `\s*$` anchor, whitespace already stripped). -/
def parseTail (s : List Char) :
    Option (Option (PreTag × Nat) × Option Nat × Option Nat × Option (List LocalSeg)) :=
  firstSome (preCandidates s) fun pc =>
  firstSome (postCandidates pc.2) fun qc =>
  firstSome (devCandidates qc.2) fun dc =>
  firstSome (localCandidates dc.2) fun lc =>
  if lc.2.isEmpty then some (pc.1, qc.1, dc.1, lc.1) else none

/-- Release, tail and epoch assembly after the epoch group. -/
def parseAfterEpoch (ep : Nat × List Char) : Option PyCore :=
  match parseRelease ep.2 with
  | none => none
  | some rl =>
    match parseTail rl.2 with
    | none => none
    | some t => some ⟨ep.1, rl.1, t.1, t.2.1, t.2.2.1, t.2.2.2⟩

/-- Full match of the compiled `VERSION_PATTERN`; `none` corresponds
to `InvalidVersion`. -/
def parseVersionCore (input : List Char) : Option PyCore :=
  parseAfterEpoch (parseEpoch (dropV ((trimWs input).map toLowerCh)))

/-- `Version(s)` from `main.py`: parse `s` and keep the raw string
(the subclass stores it as `raw_version`). -/
def parseVersion (s : String) : Option PyVersion :=
  (parseVersionCore s.toList).map fun c =>
    ⟨s, c.epoch, c.release, c.pre, c.post, c.dev, c.localSegs⟩

/-- `Version.is_prerelease`: a dev or pre segment is present. -/
def PyVersion.isPrerelease (v : PyVersion) : Bool := v.dev.isSome || v.pre.isSome

/-! ## The comparison key (`_cmpkey`) -/

/-- Drop trailing zeros of the release tuple (the
reverse/dropwhile/reverse computation in `_cmpkey`). -/
def trimZeros : List Nat → List Nat
  | [] => []
  | x :: xs =>
    match trimZeros xs with
    | [] => if x = 0 then [] else [x]
    | r => x :: r

/-- Pre-release key slot: `none` is `NegativeInfinity`, `some none` is
`Infinity`, `some (some p)` is an actual pre pair. -/
abbrev PreKey := Option (Option (PreTag × Nat))

def preTagRank : PreTag → Nat
  | .a => 0
  | .b => 1
  | .rc => 2

def preTagCmp (t u : PreTag) : Ordering := natCmp (preTagRank t) (preTagRank u)

def preValCmp : PreTag × Nat → PreTag × Nat → Ordering := prodCmp preTagCmp natCmp

def preKeyCmp : PreKey → PreKey → Ordering := botOptCmp (topOptCmp preValCmp)

/-- The pre slot of `_cmpkey`: `NegativeInfinity` when only a dev
segment is present, `Infinity` when there is no pre segment, else the
pre pair itself. -/
def preKeyOf (v : PyVersion) : PreKey :=
  match v.pre with
  | some p => some (some p)
  | none =>
    match v.post, v.dev with
    | none, some _ => none
    | _, _ => some none

def charCmp (c d : Char) : Ordering := natCmp c.toNat d.toNat

/-- Comparison of one local segment pair: in `_cmpkey` integer
segments become `(i, "")` and string segments `(NegativeInfinity, s)`,
so strings sort below integers, integers numerically, strings
lexicographically. -/
def segCmp : LocalSeg → LocalSeg → Ordering := sumCmp (lexCmp charCmp) natCmp

/-- Local slot comparison: absent local sorts lowest. -/
def localKeyCmp : Option (List LocalSeg) → Option (List LocalSeg) → Ordering :=
  botOptCmp (lexCmp segCmp)

/-- Post slot comparison: absent post is `NegativeInfinity`. -/
def postKeyCmp : Option Nat → Option Nat → Ordering := botOptCmp natCmp

/-- Dev slot comparison: absent dev is `Infinity`. -/
def devKeyCmp : Option Nat → Option Nat → Ordering := topOptCmp natCmp

/-- The `_cmpkey` tuple. -/
abbrev VKey :=
  Nat × List Nat × PreKey × Option Nat × Option Nat × Option (List LocalSeg)

def keyOf (v : PyVersion) : VKey :=
  (v.epoch, trimZeros v.release, preKeyOf v, v.post, v.dev, v.localSegs)

/-- Python tuple comparison of two `_cmpkey` values. -/
def vkeyCmp : VKey → VKey → Ordering :=
  prodCmp natCmp (prodCmp (lexCmp natCmp) (prodCmp preKeyCmp
    (prodCmp postKeyCmp (prodCmp devKeyCmp localKeyCmp))))

/-- `Version.__lt__`. -/
def versionLtB (a b : PyVersion) : Bool :=
  match vkeyCmp (keyOf a) (keyOf b) with
  | .lt => true
  | _ => false

/-- `Version.__gt__`. -/
def versionGtB (a b : PyVersion) : Bool :=
  match vkeyCmp (keyOf a) (keyOf b) with
  | .gt => true
  | _ => false

/-- `Version.__le__`. -/
def versionLeB (a b : PyVersion) : Bool :=
  match vkeyCmp (keyOf a) (keyOf b) with
  | .gt => false
  | _ => true

/-- `Version.__eq__`. -/
def versionEqB (a b : PyVersion) : Bool :=
  match vkeyCmp (keyOf a) (keyOf b) with
  | .eq => true
  | _ => false

/-- Sanity examples checking the parser against `packaging` behaviour. -/
theorem parse_sanity_plain :
    parseVersion "2.5.3" = some ⟨"2.5.3", 0, [2, 5, 3], none, none, none, none⟩ := by
  rfl

theorem parse_sanity_rc :
    parseVersion "1.2rc1" = some ⟨"1.2rc1", 0, [1, 2], some (.rc, 1), none, none, none⟩ := by
  rfl

theorem parse_sanity_complex :
    parseVersion " v1!2.0.Alpha-3.post.dev6+Foo.01 " =
      some ⟨" v1!2.0.Alpha-3.post.dev6+Foo.01 ", 1, [2, 0], some (.a, 3),
        some 0, some 6, some [.inl ['f', 'o', 'o'], .inr 1]⟩ := by
  rfl

theorem parse_sanity_invalid : parseVersion "not-a-version" = none := by
  rfl

theorem parse_sanity_implicit_post :
    parseVersion "1.0-1" = some ⟨"1.0-1", 0, [1, 0], none, some 1, none, none⟩ := by
  rfl

/-! ## Lawfulness of the key comparison -/

theorem charCmp_lawful : LawfulCmp charCmp := by
  have h := lawful_pullback Char.toNat ?_ natCmp_lawful
  · exact h
  · intro x y hh
    have h2 := congrArg Char.ofNat hh
    rwa [Char.ofNat_toNat, Char.ofNat_toNat] at h2

theorem preTagCmp_lawful : LawfulCmp preTagCmp := by
  have h := lawful_pullback preTagRank ?_ natCmp_lawful
  · exact h
  · intro x y hh
    cases x <;> cases y <;> first | rfl | (exfalso; simp [preTagRank] at hh)

theorem preKeyCmp_lawful : LawfulCmp preKeyCmp :=
  botOptCmp_lawful (topOptCmp_lawful (prodCmp_lawful preTagCmp_lawful natCmp_lawful))

theorem segCmp_lawful : LawfulCmp segCmp :=
  sumCmp_lawful (lexCmp_lawful charCmp_lawful) natCmp_lawful

theorem localKeyCmp_lawful : LawfulCmp localKeyCmp :=
  botOptCmp_lawful (lexCmp_lawful segCmp_lawful)

theorem vkeyCmp_lawful : LawfulCmp vkeyCmp :=
  prodCmp_lawful natCmp_lawful (prodCmp_lawful (lexCmp_lawful natCmp_lawful)
    (prodCmp_lawful preKeyCmp_lawful (prodCmp_lawful (botOptCmp_lawful natCmp_lawful)
      (prodCmp_lawful (topOptCmp_lawful natCmp_lawful) localKeyCmp_lawful))))

theorem versionLtB_iff {a b : PyVersion} :
    versionLtB a b = true ↔ vkeyCmp (keyOf a) (keyOf b) = .lt := by
  unfold versionLtB
  cases h : vkeyCmp (keyOf a) (keyOf b) <;> simp

theorem versionGtB_iff {a b : PyVersion} :
    versionGtB a b = true ↔ vkeyCmp (keyOf a) (keyOf b) = .gt := by
  unfold versionGtB
  cases h : vkeyCmp (keyOf a) (keyOf b) <;> simp

theorem versionLeB_iff {a b : PyVersion} :
    versionLeB a b = true ↔ vkeyCmp (keyOf a) (keyOf b) ≠ .gt := by
  unfold versionLeB
  cases h : vkeyCmp (keyOf a) (keyOf b) <;> simp

theorem versionLtB_false_iff {a b : PyVersion} :
    versionLtB a b = false ↔ vkeyCmp (keyOf a) (keyOf b) ≠ .lt := by
  unfold versionLtB
  cases h : vkeyCmp (keyOf a) (keyOf b) <;> simp

/-- Not being above is the mirror of not being below. -/
theorem versionLeB_of_not_lt {a b : PyVersion} (h : versionLtB b a = false) :
    versionLeB a b = true := by
  rw [versionLeB_iff]
  rw [versionLtB_false_iff] at h
  intro hgt
  exact h ((vkeyCmp_lawful.gt_iff_lt _ _).mp hgt)

/-! ## `max(sorted(versions))`

Python's `sorted` is stable and ascending, and builtin `max` replaces
its running value only on a strict `>`, so `max(sorted(vs))` is the
earliest-occurring maximal element of `vs` — exactly the fold below —
and raises `ValueError` on an empty sequence. -/

def maxStep (acc : Option PyVersion) (v : PyVersion) : Option PyVersion :=
  match acc with
  | none => some v
  | some a => if versionGtB v a then some v else some a

def maxVersion (vs : List PyVersion) : Option PyVersion :=
  vs.foldl maxStep none

theorem maxStep_some_eq (a v : PyVersion) :
    maxStep (some a) v = if versionGtB v a then some v else some a := rfl

theorem maxStep_isSome (a : PyVersion) (vs : List PyVersion) :
    ∃ m, vs.foldl maxStep (some a) = some m := by
  induction vs generalizing a with
  | nil => exact ⟨a, rfl⟩
  | cons v vs ih =>
    rw [List.foldl_cons, maxStep_some_eq]
    cases h : versionGtB v a
    · rw [if_neg (by simp)]; exact ih a
    · rw [if_pos rfl]; exact ih v

theorem maxVersion_aux (vs : List PyVersion) :
    ∀ (a m : PyVersion), vs.foldl maxStep (some a) = some m →
      (m = a ∨ m ∈ vs) ∧ versionLtB m a = false ∧ ∀ v ∈ vs, versionLtB m v = false := by
  induction vs with
  | nil =>
    intro a m h
    replace h : some a = some m := h
    injection h with h
    subst h
    refine ⟨Or.inl rfl, ?_, by simp⟩
    rw [versionLtB_false_iff, vkeyCmp_lawful.refl]
    simp
  | cons v vs ih =>
    intro a m h
    rw [List.foldl_cons, maxStep_some_eq] at h
    by_cases hgt : versionGtB v a = true
    · rw [if_pos hgt] at h
      obtain ⟨hmem, hlt, hall⟩ := ih v m h
      have hav : vkeyCmp (keyOf a) (keyOf v) = .lt :=
        (vkeyCmp_lawful.gt_iff_lt _ _).mp (versionGtB_iff.mp hgt)
      refine ⟨?_, ?_, ?_⟩
      · rcases hmem with rfl | hmem
        · exact Or.inr (List.mem_cons_self _ _)
        · exact Or.inr (List.mem_cons_of_mem _ hmem)
      · rw [versionLtB_false_iff]
        intro hma
        rw [versionLtB_false_iff] at hlt
        exact hlt (vkeyCmp_lawful.lt_trans hma hav)
      · intro w hw
        rcases List.mem_cons.mp hw with rfl | hw
        · exact hlt
        · exact hall w hw
    · rw [if_neg hgt] at h
      obtain ⟨hmem, hlt, hall⟩ := ih a m h
      have hva : vkeyCmp (keyOf v) (keyOf a) ≠ .gt := by
        intro hh
        exact hgt (versionGtB_iff.mpr hh)
      refine ⟨?_, hlt, ?_⟩
      · rcases hmem with rfl | hmem
        · exact Or.inl rfl
        · exact Or.inr (List.mem_cons_of_mem _ hmem)
      · intro w hw
        rcases List.mem_cons.mp hw with rfl | hw
        · rw [versionLtB_false_iff]
          intro hmw
          rw [versionLtB_false_iff] at hlt
          cases hma : vkeyCmp (keyOf m) (keyOf a) with
          | lt => exact hlt hma
          | eq =>
            have := (vkeyCmp_lawful.eq_iff _ _).mp hma
            rw [this] at hmw
            exact hva ((vkeyCmp_lawful.gt_iff_lt _ _).mpr hmw)
          | gt =>
            have ham := (vkeyCmp_lawful.gt_iff_lt _ _).mp hma
            exact hva ((vkeyCmp_lawful.gt_iff_lt _ _).mpr
              (vkeyCmp_lawful.lt_trans ham hmw))
        · exact hall w hw

theorem maxVersion_spec {vs : List PyVersion} {m : PyVersion}
    (h : maxVersion vs = some m) :
    m ∈ vs ∧ ∀ v ∈ vs, versionLtB m v = false := by
  cases vs with
  | nil => cases h
  | cons v vs =>
    replace h : vs.foldl maxStep (some v) = some m := h
    obtain ⟨hmem, hlt, hall⟩ := maxVersion_aux vs v m h
    refine ⟨?_, ?_⟩
    · rcases hmem with rfl | hmem
      · exact List.mem_cons_self _ _
      · exact List.mem_cons_of_mem _ hmem
    · intro w hw
      rcases List.mem_cons.mp hw with rfl | hw
      · exact hlt
      · exact hall w hw

theorem maxVersion_isSome {vs : List PyVersion} (h : vs ≠ []) :
    ∃ m, maxVersion vs = some m := by
  cases vs with
  | nil => exact absurd rfl h
  | cons v vs => exact maxStep_isSome v vs

/-! ## Zero-padded release comparison -/

/-- Comparison of the all-zero vector against `b` componentwise. -/
def zerosCmpRight : List Nat → Ordering
  | [] => .eq
  | b :: bs => if b = 0 then zerosCmpRight bs else .lt

/-- Componentwise comparison of release vectors where a missing
trailing component counts as `0`. -/
def relCmp : List Nat → List Nat → Ordering
  | [], b => zerosCmpRight b
  | a :: as, [] => (zerosCmpRight (a :: as)).swap
  | a :: as, b :: bs => (natCmp a b).then (relCmp as bs)

theorem trimZeros_cons_nil {x : Nat} {xs : List Nat} (h : trimZeros xs = []) :
    trimZeros (x :: xs) = if x = 0 then [] else [x] := by
  show (match trimZeros xs with
    | [] => if x = 0 then [] else [x]
    | r => x :: r) = _
  rw [h]

theorem trimZeros_cons_ne {x : Nat} {xs : List Nat} {c : Nat} {cs : List Nat}
    (h : trimZeros xs = c :: cs) : trimZeros (x :: xs) = x :: c :: cs := by
  show (match trimZeros xs with
    | [] => if x = 0 then [] else [x]
    | r => x :: r) = _
  rw [h]

theorem trim_nil_parts {x : Nat} {xs : List Nat} (h : trimZeros (x :: xs) = []) :
    x = 0 ∧ trimZeros xs = [] := by
  cases hcs : trimZeros xs with
  | nil =>
    rw [trimZeros_cons_nil hcs] at h
    by_cases hx : x = 0
    · exact ⟨hx, rfl⟩
    · rw [if_neg hx] at h; cases h
  | cons c cs => rw [trimZeros_cons_ne hcs] at h; cases h

theorem zerosCmpRight_eq (b : List Nat) :
    zerosCmpRight b = if trimZeros b = [] then .eq else .lt := by
  induction b with
  | nil => rfl
  | cons y ys ih =>
    show (if y = 0 then zerosCmpRight ys else .lt) = _
    by_cases hy : y = 0
    · rw [if_pos hy, ih]
      cases hys : trimZeros ys with
      | nil =>
        rw [if_pos rfl, if_pos (by rw [trimZeros_cons_nil hys, if_pos hy])]
      | cons c cs =>
        rw [if_neg (by simp), if_neg (by rw [trimZeros_cons_ne hys]; simp)]
    · rw [if_neg hy]
      have hne : trimZeros (y :: ys) ≠ [] := by
        cases hys : trimZeros ys with
        | nil => rw [trimZeros_cons_nil hys, if_neg hy]; simp
        | cons c cs => rw [trimZeros_cons_ne hys]; simp
      rw [if_neg hne]

theorem relCmp_nil_left (b : List Nat) :
    relCmp [] b = if trimZeros b = [] then .eq else .lt := zerosCmpRight_eq b

theorem relCmp_nil_right (a : List Nat) :
    relCmp a [] = if trimZeros a = [] then .eq else .gt := by
  cases a with
  | nil => rfl
  | cons x xs =>
    show (zerosCmpRight (x :: xs)).swap = _
    rw [zerosCmpRight_eq]
    by_cases h : trimZeros (x :: xs) = []
    · rw [if_pos h, if_pos h]; rfl
    · rw [if_neg h, if_neg h]; rfl

theorem relCmp_eq_of_trim_nil :
    ∀ (a b : List Nat), trimZeros a = [] → trimZeros b = [] → relCmp a b = .eq := by
  intro a
  induction a with
  | nil => intro b _ hb; rw [relCmp_nil_left, if_pos hb]
  | cons x xs ih =>
    intro b ha hb
    obtain ⟨hx, hxs⟩ := trim_nil_parts ha
    cases b with
    | nil => rw [relCmp_nil_right, if_pos ha]
    | cons y ys =>
      obtain ⟨hy, hys⟩ := trim_nil_parts hb
      show (natCmp x y).then (relCmp xs ys) = .eq
      rw [hx, hy, natCmp_eq_of rfl, ih ys hxs hys]
      rfl

theorem relCmp_lt_left_zero :
    ∀ (a b : List Nat), trimZeros a = [] → trimZeros b ≠ [] → relCmp a b = .lt := by
  intro a
  induction a with
  | nil => intro b _ hb; rw [relCmp_nil_left, if_neg hb]
  | cons x xs ih =>
    intro b ha hb
    obtain ⟨hx, hxs⟩ := trim_nil_parts ha
    cases b with
    | nil => exact absurd rfl hb
    | cons y ys =>
      show (natCmp x y).then (relCmp xs ys) = .lt
      by_cases hy : y = 0
      · have hys : trimZeros ys ≠ [] := by
          intro hys
          exact hb (by rw [trimZeros_cons_nil hys, if_pos hy])
        rw [hx, hy, natCmp_eq_of rfl, ih ys hxs hys]
        rfl
      · have h0y : 0 < y := by omega
        rw [hx, natCmp_lt_of h0y]
        rfl

theorem relCmp_symm : ∀ (a b : List Nat), relCmp a b = (relCmp b a).swap := by
  intro a
  induction a with
  | nil =>
    intro b
    rw [relCmp_nil_left, relCmp_nil_right]
    by_cases h : trimZeros b = []
    · rw [if_pos h, if_pos h]; rfl
    · rw [if_neg h, if_neg h]; rfl
  | cons x xs ih =>
    intro b
    cases b with
    | nil =>
      rw [relCmp_nil_right, relCmp_nil_left]
      by_cases h : trimZeros (x :: xs) = []
      · rw [if_pos h, if_pos h]; rfl
      · rw [if_neg h, if_neg h]; rfl
    | cons y ys =>
      show (natCmp x y).then (relCmp xs ys) = ((natCmp y x).then (relCmp ys xs)).swap
      rw [swap_then, ← natCmp_lawful.symm, ← ih ys]

theorem relCmp_gt_left_zero {a b : List Nat}
    (ha : trimZeros a ≠ []) (hb : trimZeros b = []) : relCmp a b = .gt := by
  rw [relCmp_symm, relCmp_lt_left_zero b a hb ha]; rfl

/-- The comparison of trimmed release tuples in `_cmpkey` is exactly
the zero-padded componentwise comparison. -/
theorem lex_trim_eq_relCmp : ∀ (a b : List Nat),
    lexCmp natCmp (trimZeros a) (trimZeros b) = relCmp a b := by
  intro a
  induction a with
  | nil =>
    intro b
    show lexCmp natCmp [] (trimZeros b) = relCmp [] b
    rw [relCmp_nil_left]
    cases hb : trimZeros b with
    | nil => rw [if_pos rfl]; rfl
    | cons c cs => rw [if_neg (by simp)]; rfl
  | cons x xs ih =>
    intro b
    cases b with
    | nil =>
      show lexCmp natCmp (trimZeros (x :: xs)) [] = relCmp (x :: xs) []
      rw [relCmp_nil_right]
      cases hx2 : trimZeros (x :: xs) with
      | nil => rw [if_pos rfl]; rfl
      | cons c cs => rw [if_neg (by simp)]; rfl
    | cons y ys =>
      show lexCmp natCmp (trimZeros (x :: xs)) (trimZeros (y :: ys)) =
        (natCmp x y).then (relCmp xs ys)
      cases h1 : trimZeros xs with
      | nil =>
        cases h2 : trimZeros ys with
        | nil =>
          rw [trimZeros_cons_nil h1, trimZeros_cons_nil h2,
            relCmp_eq_of_trim_nil xs ys h1 h2]
          by_cases hx : x = 0 <;> by_cases hy : y = 0
          · rw [if_pos hx, if_pos hy, hx, hy, natCmp_eq_of rfl]; rfl
          · rw [if_pos hx, if_neg hy, hx, natCmp_lt_of (by omega)]; rfl
          · rw [if_neg hx, if_pos hy, hy, natCmp_gt_of (by omega)]; rfl
          · rw [if_neg hx, if_neg hy]
            show (natCmp x y).then (lexCmp natCmp [] []) = (natCmp x y).then .eq
            rfl
        | cons c cs =>
          rw [trimZeros_cons_nil h1, trimZeros_cons_ne h2,
            relCmp_lt_left_zero xs ys h1 (by rw [h2]; simp)]
          by_cases hx : x = 0
          · rw [if_pos hx, hx]
            rcases Nat.eq_zero_or_pos y with hy | hy
            · rw [hy, natCmp_eq_of rfl]; rfl
            · rw [natCmp_lt_of hy]; rfl
          · rw [if_neg hx]
            show (natCmp x y).then (lexCmp natCmp [] (c :: cs)) = (natCmp x y).then .lt
            rfl
      | cons a0 as0 =>
        cases h2 : trimZeros ys with
        | nil =>
          rw [trimZeros_cons_ne h1, trimZeros_cons_nil h2,
            relCmp_gt_left_zero (a := xs) (b := ys) (by rw [h1]; simp) h2]
          by_cases hy : y = 0
          · rw [if_pos hy, hy]
            rcases Nat.eq_zero_or_pos x with hx | hx
            · rw [hx, natCmp_eq_of rfl]; rfl
            · rw [natCmp_gt_of hx]; rfl
          · rw [if_neg hy]
            show (natCmp x y).then (lexCmp natCmp (a0 :: as0) []) = (natCmp x y).then .gt
            rfl
        | cons c cs =>
          rw [trimZeros_cons_ne h1, trimZeros_cons_ne h2]
          show (natCmp x y).then (lexCmp natCmp (a0 :: as0) (c :: cs)) = _
          rw [← h1, ← h2, ih ys]

/-- Incrementing the element after a shared stem always yields a
strictly larger release vector, whatever follows the stem. -/
theorem relCmp_stem_lt : ∀ (p : List Nat) (x : Nat) (rest : List Nat),
    relCmp (p ++ x :: rest) (p ++ [x + 1]) = .lt := by
  intro p
  induction p with
  | nil =>
    intro x rest
    show (natCmp x (x + 1)).then (relCmp rest []) = .lt
    rw [natCmp_lt_of (by omega)]
    rfl
  | cons q p ih =>
    intro x rest
    show (natCmp q q).then (relCmp (p ++ x :: rest) (p ++ [x + 1])) = .lt
    rw [natCmp_eq_of rfl, ih]
    rfl

/-- The comparison key laid out as a chain of `Ordering.then`. -/
theorem vkeyCmp_expand (v w : PyVersion) :
    vkeyCmp (keyOf v) (keyOf w) =
      (natCmp v.epoch w.epoch).then
        ((lexCmp natCmp (trimZeros v.release) (trimZeros w.release)).then
          ((preKeyCmp (preKeyOf v) (preKeyOf w)).then
            ((postKeyCmp v.post w.post).then
              ((devKeyCmp v.dev w.dev).then
                (localKeyCmp v.localSegs w.localSegs))))) := rfl

/-- A strictly smaller release vector (same epoch) forces a strictly
smaller version, regardless of the remaining segments. -/
theorem vkey_lt_of_relCmp {v w : PyVersion} (he : v.epoch = w.epoch)
    (h : relCmp v.release w.release = .lt) : vkeyCmp (keyOf v) (keyOf w) = .lt := by
  rw [vkeyCmp_expand, natCmp_eq_of he, lex_trim_eq_relCmp, h]
  rfl

/-! ## The resolver (`_determine_latest_version`) -/

inductive Target | major | minor | patch
deriving DecidableEq, Repr

/-- The `SEMVER` index table. -/
def SEMVER : Target → Nat
  | .major => 0
  | .minor => 1
  | .patch => 2

/-- Errors raised by `_determine_latest_version`: `InvalidVersion`
when the current version does not parse, and the `ValueError` raised
by `max` on an empty sequence when no candidate survives filtering.
Both are `ValueError`s to the caller. -/
inductive ResolveErr | invalidVersion | noEligible
deriving DecidableEq, Repr

/-- `ceiling[-1] += 1` on the (always non-empty) prefix list. -/
def incLast : List Nat → List Nat
  | [] => []
  | [x] => [x + 1]
  | x :: y :: xs => x :: incLast (y :: xs)

/-- `Version(".".join(map(str, ceiling)))`: parsing a dot-joined list
of decimal numerals yields exactly this structure — the list as the
release segment and nothing else (see `mkCeiling_matches_parse`). -/
def mkCeiling (l : List Nat) : PyVersion :=
  ⟨String.intercalate "." (l.map toString), 0, l, none, none, none, none⟩

theorem mkCeiling_matches_parse :
    parseVersion "3" = some (mkCeiling [3]) ∧
    parseVersion "2.6" = some (mkCeiling [2, 6]) ∧
    parseVersion "2.5.11" = some (mkCeiling [2, 5, 11]) := by
  refine ⟨?_, ?_, ?_⟩ <;> rfl

/-- `SpecifierSet(prereleases=False).filter(versions)` with no
specifiers: keep the non-prerelease versions; when every version is a
prerelease the stashed prereleases are yielded instead, i.e. the input
comes back unchanged. -/
def prereleaseFilter (vs : List PyVersion) : List PyVersion :=
  if (vs.filter fun v => !v.isPrerelease).isEmpty then vs
  else vs.filter fun v => !v.isPrerelease

/-- `SpecifierSet("<" + str(ceiling)).filter(versions)`: the ceiling
is a final release so the specifier admits no prereleases at all, and
`<` keeps exactly the non-prereleases strictly below the ceiling. -/
def ceilingFilter (c : PyVersion) (vs : List PyVersion) : List PyVersion :=
  vs.filter fun v => !v.isPrerelease && versionLtB v c

/-- Candidate list after both filters of `_determine_latest_version`:
parse and silently drop unparsable strings, slice
`current_version[0:index]` as the ceiling prefix, then apply the
prerelease filter and (when the prefix is non-empty) the exclusive
ceiling filter. -/
def resolveCands (cv : PyVersion) (target : Target) (versions : List String) :
    List PyVersion :=
  let parsed := versions.filterMap parseVersion
  let ceilingL := cv.release.take (SEMVER target)
  let cands := prereleaseFilter parsed
  if ceilingL.isEmpty then cands
  else ceilingFilter (mkCeiling (incLast ceilingL)) cands

/-- `_determine_latest_version(current_version, target, versions)`,
returning the `raw_version` of the maximum surviving candidate. -/
def determineLatestVersion (currentVersion : String) (target : Target)
    (versions : List String) : Except ResolveErr String :=
  match parseVersion currentVersion with
  | none => .error .invalidVersion
  | some cv =>
    match maxVersion (resolveCands cv target versions) with
    | none => .error .noEligible
    | some m => .ok m.raw

/-- Resolver sanity checks (the spec's two worked examples). -/
theorem resolve_sanity_examples :
    determineLatestVersion "2.5.3" .minor ["2.5.4", "2.6.0", "3.0.0"] = .ok "2.6.0" ∧
    determineLatestVersion "2.5.3" .patch ["2.5.4", "2.5.10", "2.6.0"] = .ok "2.5.10" := by
  refine ⟨?_, ?_⟩ <;> rfl

/-! ## Resolver characterization -/

theorem resolveCands_eq (cv : PyVersion) (target : Target) (versions : List String) :
    resolveCands cv target versions =
      if (cv.release.take (SEMVER target)).isEmpty then
        prereleaseFilter (versions.filterMap parseVersion)
      else
        ceilingFilter (mkCeiling (incLast (cv.release.take (SEMVER target))))
          (prereleaseFilter (versions.filterMap parseVersion)) := rfl

/-- The ceiling actually applied, as an optional value. -/
def ceilingOf (cv : PyVersion) (target : Target) : Option PyVersion :=
  if (cv.release.take (SEMVER target)).isEmpty then none
  else some (mkCeiling (incLast (cv.release.take (SEMVER target))))

/-- Eligibility of one parsed version: not a prerelease and below the
ceiling when one exists. -/
def eligibleB (cv : PyVersion) (target : Target) (v : PyVersion) : Bool :=
  !v.isPrerelease &&
    (match ceilingOf cv target with
     | none => true
     | some c => versionLtB v c)

theorem filter_filter_eq {p q : α → Bool} (l : List α) :
    (l.filter p).filter q = l.filter fun a => p a && q a := by
  induction l with
  | nil => rfl
  | cons x xs ih =>
    cases hp : p x <;> cases hq : q x <;>
      simp [List.filter_cons, hp, hq, ih]

/-- With at least one parsed non-prerelease present, the candidate
list is exactly the eligible sublist of the parsed versions. -/
theorem resolveCands_eq_eligible (cv : PyVersion) (target : Target)
    {versions : List String}
    (hne : (versions.filterMap parseVersion).filter (fun v => !v.isPrerelease) ≠ []) :
    resolveCands cv target versions =
      (versions.filterMap parseVersion).filter (eligibleB cv target) := by
  rw [resolveCands_eq]
  have hpf : prereleaseFilter (versions.filterMap parseVersion) =
      (versions.filterMap parseVersion).filter (fun v => !v.isPrerelease) := by
    unfold prereleaseFilter
    rw [if_neg (by simpa using hne)]
  rw [hpf]
  by_cases hc : (cv.release.take (SEMVER target)).isEmpty
  · rw [if_pos hc]
    apply List.filter_congr
    intro v _
    simp [eligibleB, ceilingOf, hc]
  · rw [if_neg hc]
    unfold ceilingFilter
    rw [filter_filter_eq]
    apply List.filter_congr
    intro v _
    cases hv : v.isPrerelease <;>
      simp [eligibleB, ceilingOf, hc, hv]

theorem parseVersion_raw {s : String} {v : PyVersion}
    (h : parseVersion s = some v) : v.raw = s := by
  unfold parseVersion at h
  cases hc : parseVersionCore s.toList <;> rw [hc] at h
  · cases h
  · simp only [Option.map_some'] at h
    injection h with h
    subst h
    rfl

theorem mem_filterMap_parse {versions : List String} {v : PyVersion}
    (h : v ∈ versions.filterMap parseVersion) :
    v.raw ∈ versions ∧ parseVersion v.raw = some v := by
  obtain ⟨s, hs, hp⟩ := List.mem_filterMap.mp h
  have hr := parseVersion_raw hp
  rw [hr]
  exact ⟨hs, hp⟩

/-- Unfolding lemma for a parsed current version. -/
theorem determineLatest_eq_of_parse {cur : String} {cv : PyVersion}
    (hcv : parseVersion cur = some cv) (target : Target) (versions : List String) :
    determineLatestVersion cur target versions =
      match maxVersion (resolveCands cv target versions) with
      | none => .error .noEligible
      | some m => .ok m.raw := by
  unfold determineLatestVersion
  rw [hcv]

/-- Success characterization of the resolver: if some parsed version
is eligible, the resolver succeeds and returns the raw string of an
eligible candidate that no eligible candidate strictly exceeds. -/
theorem determineLatest_ok {cur : String} {cv : PyVersion} {target : Target}
    {versions : List String} (hcv : parseVersion cur = some cv)
    {w : PyVersion} (hw : w ∈ versions.filterMap parseVersion)
    (he : eligibleB cv target w = true) :
    ∃ m, determineLatestVersion cur target versions = .ok m.raw ∧
      m ∈ versions.filterMap parseVersion ∧ eligibleB cv target m = true ∧
      ∀ v ∈ versions.filterMap parseVersion, eligibleB cv target v = true →
        versionLtB m v = false := by
  have hwpre : (!w.isPrerelease) = true := by
    simp only [eligibleB, Bool.and_eq_true] at he
    exact he.1
  have hne : (versions.filterMap parseVersion).filter (fun v => !v.isPrerelease) ≠ [] :=
    List.ne_nil_of_mem (List.mem_filter.mpr ⟨hw, hwpre⟩)
  have hcand := resolveCands_eq_eligible cv target hne
  have hwmem : w ∈ (versions.filterMap parseVersion).filter (eligibleB cv target) :=
    List.mem_filter.mpr ⟨hw, he⟩
  have hnn : resolveCands cv target versions ≠ [] := by
    rw [hcand]
    exact List.ne_nil_of_mem hwmem
  obtain ⟨m, hm⟩ := maxVersion_isSome hnn
  obtain ⟨hmm, hmax⟩ := maxVersion_spec hm
  rw [hcand] at hmm hmax
  refine ⟨m, ?_, (List.mem_filter.mp hmm).1, (List.mem_filter.mp hmm).2, ?_⟩
  · rw [determineLatest_eq_of_parse hcv, hm]
  · intro v hv hev
    exact hmax v (List.mem_filter.mpr ⟨hv, hev⟩)

theorem parseRelease_ne_nil {s : List Char} {rl : List Nat × List Char}
    (h : parseRelease s = some rl) : rl.1 ≠ [] := by
  unfold parseRelease parseReleaseRest at h
  split at h
  · cases h
  · injection h with h
    subst h
    simp

theorem parseVersionCore_release {s : List Char} {c : PyCore}
    (h : parseVersionCore s = some c) : c.release ≠ [] := by
  unfold parseVersionCore parseAfterEpoch at h
  split at h
  · cases h
  · rename_i rl hrl
    split at h
    · cases h
    · injection h with h
      subst h
      exact parseRelease_ne_nil hrl

theorem parseVersion_release_ne_nil {s : String} {v : PyVersion}
    (h : parseVersion s = some v) : v.release ≠ [] := by
  unfold parseVersion at h
  cases hc : parseVersionCore s.toList <;> rw [hc] at h
  · cases h
  · rename_i c
    simp only [Option.map_some'] at h
    injection h with h
    subst h
    exact parseVersionCore_release hc

/-- `incLast` distributes over a cons with a non-empty tail. -/
theorem incLast_cons {a : Nat} {l : List Nat} (h : l ≠ []) :
    incLast (a :: l) = a :: incLast l := by
  cases l with
  | nil => exact absurd rfl h
  | cons b bs => rfl

/-- Decomposing `rel.take k` (for `k ≥ 1` on a non-empty list) as a
stem plus its last element, with the increment applied. -/
theorem take_stem : ∀ {rel : List Nat} {k : Nat}, 1 ≤ k → rel ≠ [] →
    ∃ p x rest, rel.take k = p ++ [x] ∧ rel = p ++ x :: rest ∧
      incLast (rel.take k) = p ++ [x + 1] := by
  intro rel
  induction rel with
  | nil => intro k _ hrel; exact absurd rfl hrel
  | cons a t ih =>
    intro k hk hrel
    match k, hk with
    | 1, _ =>
      exact ⟨[], a, t, by simp, by simp, by simp [incLast]⟩
    | k'' + 2, _ =>
      cases t with
      | nil =>
        refine ⟨[], a, [], ?_, by simp, ?_⟩
        · simp
        · simp [incLast]
      | cons b t2 =>
        obtain ⟨p, x, rest, ht, hrel2, hinc⟩ :=
          ih (k := k'' + 1) (by omega) (by simp)
        refine ⟨a :: p, x, rest, ?_, ?_, ?_⟩
        · show a :: (b :: t2).take (k'' + 1) = (a :: p) ++ [x]
          rw [ht]; rfl
        · rw [List.cons_append]
          exact congrArg (a :: ·) hrel2
        · show incLast (a :: (b :: t2).take (k'' + 1)) = (a :: p) ++ [x + 1]
          rw [ht, incLast_cons (by simp), ← ht, hinc]
          rfl

/-- With target `major` there is no ceiling: eligibility is exactly
"not a prerelease". -/
theorem eligibleB_major (cv v : PyVersion) :
    eligibleB cv .major v = !v.isPrerelease := by
  simp [eligibleB, ceilingOf, SEMVER]

/-- A final-release version with epoch 0 is always strictly below the
ceiling derived from its own release vector, hence eligible for every
target field. -/
theorem self_eligible {cv : PyVersion} (hpre : cv.isPrerelease = false)
    (hep : cv.epoch = 0) (hrel : cv.release ≠ []) (target : Target) :
    eligibleB cv target cv = true := by
  by_cases hc : (cv.release.take (SEMVER target)).isEmpty
  · simp [eligibleB, ceilingOf, hc, hpre]
  · have hk : 1 ≤ SEMVER target := by
      cases target <;> simp [SEMVER] at hc ⊢
    obtain ⟨p, x, rest, _, hrel2, hinc⟩ := take_stem hk hrel
    have hlt : versionLtB cv (mkCeiling (incLast (cv.release.take (SEMVER target)))) = true := by
      rw [versionLtB_iff]
      apply vkey_lt_of_relCmp
      · rw [hep]; rfl
      · show relCmp cv.release (incLast (cv.release.take (SEMVER target))) = .lt
        rw [hinc, hrel2]
        exact relCmp_stem_lt p x rest
    simp [eligibleB, ceilingOf, hc, hpre, hlt]

/-- On a singleton list holding exactly the current version string
(final release, epoch 0), the resolver returns the current version
itself: nothing filters out a version equal to the current one. -/
theorem resolve_self {cur : String} {cv : PyVersion} (h : parseVersion cur = some cv)
    (hpre : cv.isPrerelease = false) (hep : cv.epoch = 0) (target : Target) :
    determineLatestVersion cur target [cur] = .ok cur := by
  have hmem : cv ∈ ([cur].filterMap parseVersion) := by simp [h]
  have helig := self_eligible hpre hep (parseVersion_release_ne_nil h) target
  obtain ⟨m, hok, hmm, _, _⟩ := determineLatest_ok h hmem helig
  have hmcv : m = cv := by simpa [h] using hmm
  rw [hok, hmcv, parseVersion_raw h]

/-! ## Attribute extraction (`_get_values`, `_get_unique_value`)

`_get_values(attribute, text)` evaluates
`re.findall(attribute + '\s+=\s+"(.*)";', text)`: a literal attribute
name, at least one whitespace character on each side of `=`, an
opening double quote, the greedy group `(.*)` (in which `.` does not
match a newline), then the literal `";`.  `findall` scans left to
right and resumes after each non-overlapping match. -/

inductive ExtractErr | tooMany | noValue
deriving DecidableEq, Repr

/-- First-wins choice between two optional results. -/
def orElseO (a b : Option α) : Option α :=
  match a with
  | some x => some x
  | none => b

/-- Greedy match of `(.*)";`: among all decompositions
`s = g ++ '"' :: ';' :: rest` with `g` newline-free, commit to the
longest `g` (the regex engine backtracks from the end). -/
def greedyValue : List Char → Option (List Char × List Char)
  | [] => none
  | c :: cs =>
    orElseO
      (if c = '\n' then none
       else (greedyValue cs).map fun p => (c :: p.1, p.2))
      (if c = '"' then
        match cs with
        | ';' :: rest => some ([], rest)
        | _ => none
      else none)

/-- One attempted match of the whole pattern at the head of `s`,
returning the captured group and the rest of the text after the
match. -/
def matchAttrAt (attr s : List Char) : Option (List Char × List Char) :=
  match dropLit attr s with
  | none => none
  | some s1 =>
    if (s1.takeWhile isPySpace).isEmpty then none
    else
      match s1.dropWhile isPySpace with
      | '=' :: s3 =>
        if (s3.takeWhile isPySpace).isEmpty then none
        else
          match s3.dropWhile isPySpace with
          | '"' :: s5 => greedyValue s5
          | _ => none
      | _ => none

/-- The `findall` scan (fuel-bounded; every step shortens the text so
`length + 1` fuel always suffices). -/
def findValuesAux (attr : List Char) : Nat → List Char → List (List Char)
  | 0, _ => []
  | fuel + 1, s =>
    match matchAttrAt attr s with
    | some gr => gr.1 :: findValuesAux attr fuel gr.2
    | none =>
      match s with
      | [] => []
      | _ :: cs => findValuesAux attr fuel cs

/-- `_get_values(attribute, text)`. -/
def getValues (attrName text : String) : List String :=
  (findValuesAux attrName.toList (text.toList.length + 1) text.toList).map
    fun g => String.mk g

/-- `_get_unique_value(attribute, text)`: more than one match raises
"found too many values", exactly one is returned, zero raises
"no value found". -/
def getUniqueValue (attrName text : String) : Except ExtractErr String :=
  match getValues attrName text with
  | [] => .error .noValue
  | [v] => .ok v
  | _ :: _ :: _ => .error .tooMany

/-- Extraction sanity checks: the greedy group spans two same-line
declarations but not a newline. -/
theorem extract_sanity :
    getValues "pname" "pname = \"foo\"; pname = \"bar\";" = ["foo\"; pname = \"bar"] ∧
    getValues "pname" "pname = \"foo\";\npname = \"bar\";" = ["foo", "bar"] ∧
    getValues "version" "pname = \"foo\";\nversion = \"1.0\";\n" = ["1.0"] := by
  refine ⟨?_, ?_, ?_⟩ <;> rfl

/-! ## Per-package pipeline (`_check_pypi`, `_print_new_version`,
`_update`) and batch driver (`main`) -/

inductive UpdateErr
  | missingAttr
  | ambiguousAttr
  | fetchFailed
  | invalidVersion
  | noEligible
  | downgrade
deriving DecidableEq, Repr

def extractErrTo : ExtractErr → UpdateErr
  | .tooMany => .ambiguousAttr
  | .noValue => .missingAttr

def resolveErrTo : ResolveErr → UpdateErr
  | .invalidVersion => .invalidVersion
  | .noEligible => .noEligible

/-- Resolution step of `_check_pypi` once the releases are fetched. -/
def checkPypiWithVersions (currentVersion : String) (target : Target)
    (versions : List String) : Except UpdateErr String :=
  match determineLatestVersion currentVersion target versions with
  | .error e => .error (resolveErrTo e)
  | .ok v => .ok v

/-- `_fetch_page` + `_check_pypi`: the registry maps a package name to
the keys of its `releases` object (`none` for a non-ok HTTP status,
which raises `ValueError`).  The `KeyError` re-raise in `_check_pypi`
can never fire because the resolver's result is always one of the
keys (see `determineLatest_ok` and `mem_filterMap_parse`). -/
def checkPypi (registry : String → Option (List String))
    (package currentVersion : String) (target : Target) : Except UpdateErr String :=
  match registry package with
  | none => .error .fetchFailed
  | some versions => checkPypiWithVersions currentVersion target versions

def PYPI_PACKAGE_URL : String := "https://pypi.org/project"

/-- Anchored `grep` pattern match where `.` in the pattern matches any
character: the pattern `{pname}-{version}` is interpolated unquoted
into the shell pipeline as a basic regular expression (the names the
program handles contain no metacharacters other than dots). -/
def grepHere : List Char → List Char → Bool
  | [], _ => true
  | _ :: _, [] => false
  | p :: ps, c :: cs => (p = '.' || p = c) && grepHere ps cs

/-- Unanchored `grep` line match. -/
def grepLine (pat : List Char) : List Char → Bool
  | [] => grepHere pat []
  | c :: cs => grepHere pat (c :: cs) || grepLine pat cs

/-- `cat {drv_name_path} | grep {pat} | grep -v python2 | head -1` on
the inventory given as its list of lines: the first line that matches
the pattern and does not contain `python2`, or the empty string
(`head` of an empty stream, decoded and stripped). -/
def subprocessGrep (drvNames : List String) (pat : String) : String :=
  match drvNames.filter
      (fun l => grepLine pat.toList l.toList &&
        !grepLine ("python2").toList l.toList) with
  | [] => ""
  | l :: _ => l

/-- `"-".join(drv_name.split("-")[:-1])`. -/
def stripLastDashPart (s : String) : String :=
  String.intercalate "-" ((s.splitOn "-").dropLast)

/-- Tail of `_print_new_version` from the string-equality check on:
NoOp on equal strings, downgrade on `Version(new) <= Version(old)`,
otherwise the inventory lookup and the report line.  The fallback arm
is unreachable: both strings were parsed successfully earlier in the
pipeline (in Python the re-parse would raise `InvalidVersion`, a
`ValueError`). -/
def printClassify (pname version newVersion : String) (drvNames : List String) :
    Except UpdateErr (Option String) :=
  if newVersion = version then .ok none
  else
    match parseVersion newVersion, parseVersion version with
    | some nv, some ov =>
      if versionLeB nv ov then .error .downgrade
      else
        if (stripLastDashPart (subprocessGrep drvNames (pname ++ "-" ++ version))).length = 0
        then .ok none
        else .ok (some (stripLastDashPart (subprocessGrep drvNames (pname ++ "-" ++ version)) ++
          " " ++ version ++ " " ++ newVersion ++ " " ++ PYPI_PACKAGE_URL ++ "/" ++ pname ++ "/"))
    | _, _ => .error .invalidVersion

/-- Middle of `_print_new_version`: the PyPI check with extracted
metadata in hand. -/
def printCheckStage (pname version : String) (target : Target)
    (registry : String → Option (List String)) (drvNames : List String) :
    Except UpdateErr (Option String) :=
  match checkPypi registry pname version target with
  | .error e => .error e
  | .ok newVersion => printClassify pname version newVersion drvNames

/-- `_print_new_version` with the declaration text, registry and
inventory supplied as values.  `ok none` models returning
`False`/`None` without printing; `ok (some line)` models one printed
report line. -/
def printNewVersion (text : String) (target : Target)
    (registry : String → Option (List String)) (drvNames : List String) :
    Except UpdateErr (Option String) :=
  match getUniqueValue "pname" text with
  | .error e => .error (extractErrTo e)
  | .ok pname =>
  match getUniqueValue "version" text with
  | .error e => .error (extractErrTo e)
  | .ok version => printCheckStage pname version target registry drvNames

/-- Whether the second list starts with the first. -/
def leadMatch : List Char → List Char → Bool
  | [], _ => true
  | _ :: _, [] => false
  | a :: as, b :: bs => (a = b) && leadMatch as bs

/-- `path.endswith(".nix")`: suffix test on the characters. -/
def strEndsWith (s suf : String) : Bool :=
  leadMatch suf.toList.reverse s.toList.reverse

/-- One package's classified outcome: the two informational skips of
`_update`, a caught `ValueError`, or a completed run of
`_print_new_version`. -/
inductive UpdateOutcome
  | skippedMissing
  | skippedNotNix
  | errored (e : UpdateErr)
  | completed (printed : Option String)
deriving DecidableEq, Repr

/-- The host state `_update` touches: directory test, file test and
file contents. -/
structure FileSystem where
  isDir : String → Bool
  isFile : String → Bool
  read : String → String

/-- `_update(path, target, drv_name_path)`: directories resolve to
their `default.nix`, missing files and non-`.nix` files are
informational skips, and any `ValueError` from `_print_new_version`
is caught and logged. -/
def processPackage (fs : FileSystem) (target : Target)
    (registry : String → Option (List String)) (drvNames : List String)
    (path : String) : UpdateOutcome :=
  let path1 := if fs.isDir path then path ++ "/default.nix" else path
  if !fs.isFile path1 then .skippedMissing
  else if !strEndsWith path1 ".nix" then .skippedNotNix
  else
    match printNewVersion (fs.read path1) target registry drvNames with
    | .error e => .errored e
    | .ok r => .completed r

/-- The Boolean `_update` returns: `True` exactly when
`_print_new_version` ran without raising — including when it returned
`False` (no update); its return value is discarded. -/
def updateReturn : UpdateOutcome → Bool
  | .completed _ => true
  | _ => false

/-- `ThreadPoolExecutor.map` over `update_func`: tasks are
independent and results are collected in input order regardless of
completion order, so outcome-wise the batch is a list map. -/
def runBatch (fs : FileSystem) (target : Target)
    (registry : String → Option (List String)) (drvNames : List String)
    (packages : List String) : List UpdateOutcome :=
  packages.map (processPackage fs target registry drvNames)

/-- `len(results)` in the final log line. -/
def mainChecked (fs : FileSystem) (target : Target)
    (registry : String → Option (List String)) (drvNames : List String)
    (packages : List String) : Nat :=
  (runBatch fs target registry drvNames packages).length

/-- `count = sum(filter(bool, results))` in the final log line. -/
def mainUpdatedCount (fs : FileSystem) (target : Target)
    (registry : String → Option (List String)) (drvNames : List String)
    (packages : List String) : Nat :=
  (((runBatch fs target registry drvNames packages).map updateReturn).filter
    (fun b => b)).length

/-- The report lines actually printed to stdout. -/
def reportLines (fs : FileSystem) (target : Target)
    (registry : String → Option (List String)) (drvNames : List String)
    (packages : List String) : List String :=
  (runBatch fs target registry drvNames packages).filterMap fun o =>
    match o with
    | .completed (some l) => some l
    | _ => none

/-- The process exit status of `main`: every per-package `ValueError`
is caught inside `_update` (all modelled failures are `ValueError`s),
so the run always reaches the final log line and the interpreter
exits 0, whatever the inputs. -/
def mainExitStatus (_fs : FileSystem) (_target : Target)
    (_registry : String → Option (List String)) (_drvNames : List String)
    (_packages : List String) : Nat :=
  0

/-! ## Further resolver lemmas -/

theorem prereleaseFilter_sub {vs : List PyVersion} {m : PyVersion}
    (h : m ∈ prereleaseFilter vs) : m ∈ vs := by
  unfold prereleaseFilter at h
  split at h
  · exact h
  · exact (List.mem_filter.mp h).1

theorem resolveCands_sub {cv : PyVersion} {target : Target} {versions : List String}
    {m : PyVersion} (h : m ∈ resolveCands cv target versions) :
    m ∈ versions.filterMap parseVersion := by
  rw [resolveCands_eq] at h
  split at h
  · exact prereleaseFilter_sub h
  · exact prereleaseFilter_sub (List.mem_filter.mp h).1

theorem filterMap_parse_filter (versions : List String) :
    (versions.filter fun s => (parseVersion s).isSome).filterMap parseVersion =
      versions.filterMap parseVersion := by
  induction versions with
  | nil => rfl
  | cons v vs ih =>
    cases h : parseVersion v <;>
      simp [List.filter_cons, List.filterMap_cons, h, ih]

/-! ## Claims -/

/-- Claim C2, counterexample: contrary to the claim, `resolve` on a
set containing only the current version does not raise
`NoEligibleVersion` — for every target field it returns the current
version itself (no filter removes a version equal to the current
one). -/
theorem claim_c2_counterexample :
    determineLatestVersion "2.5.3" .major ["2.5.3"] = .ok "2.5.3" ∧
    determineLatestVersion "2.5.3" .minor ["2.5.3"] = .ok "2.5.3" ∧
    determineLatestVersion "2.5.3" .patch ["2.5.3"] = .ok "2.5.3" := by
  refine ⟨?_, ?_, ?_⟩ <;> rfl

/-- Claim C2 as amended: for every current version that parses as a
non-prerelease with epoch 0, `resolve` on a set containing only the
current version returns the current version for every target field
(the caller's string-equality check then reports "already at latest");
`NoEligibleVersion` arises only when filtering leaves no candidate at
all. -/
theorem claim_c2_amended (cur : String) (cv : PyVersion) (target : Target)
    (h : parseVersion cur = some cv) (hpre : cv.isPrerelease = false)
    (hep : cv.epoch = 0) :
    determineLatestVersion cur target [cur] = .ok cur :=
  resolve_self h hpre hep target

/-- Witness for `claim_c2_amended` at a concrete input. -/
theorem claim_c2_amended_witness :
    determineLatestVersion "2.5.3" .patch ["2.5.3"] = .ok "2.5.3" :=
  claim_c2_amended "2.5.3" ⟨"2.5.3", 0, [2, 5, 3], none, none, none, none⟩ .patch
    rfl rfl rfl

/-- Claim C6: with target `major` the resolver imposes no upper
bound.  Whenever the current version parses and any known version
parses to a non-prerelease — in particular one with an arbitrarily
larger major component — the resolver succeeds and returns a known
version that bounds every parseable non-prerelease known version from
above. -/
theorem claim_c6 (cur : String) (cv : PyVersion) (versions : List String)
    (v : String) (pv : PyVersion)
    (hcv : parseVersion cur = some cv) (hv : v ∈ versions)
    (hpv : parseVersion v = some pv) (hpre : pv.isPrerelease = false) :
    ∃ r rv, determineLatestVersion cur .major versions = .ok r ∧
      r ∈ versions ∧ parseVersion r = some rv ∧ rv.isPrerelease = false ∧
      versionLeB pv rv = true ∧
      ∀ w pw, w ∈ versions → parseVersion w = some pw → pw.isPrerelease = false →
        versionLeB pw rv = true := by
  have hmem : pv ∈ versions.filterMap parseVersion :=
    List.mem_filterMap.mpr ⟨v, hv, hpv⟩
  have he : eligibleB cv .major pv = true := by
    rw [eligibleB_major, hpre]; rfl
  obtain ⟨m, hok, hmm, hem, hmax⟩ := determineLatest_ok hcv hmem he
  obtain ⟨hraw_mem, hraw_parse⟩ := mem_filterMap_parse hmm
  have hmpre : m.isPrerelease = false := by
    rw [eligibleB_major] at hem
    cases hmp : m.isPrerelease
    · rfl
    · rw [hmp] at hem; cases hem
  refine ⟨m.raw, m, hok, hraw_mem, hraw_parse, hmpre, ?_, ?_⟩
  · exact versionLeB_of_not_lt (hmax pv hmem he)
  · intro w pw hw hpw hpwpre
    have hwm : pw ∈ versions.filterMap parseVersion :=
      List.mem_filterMap.mpr ⟨w, hw, hpw⟩
    have hew : eligibleB cv .major pw = true := by
      rw [eligibleB_major, hpwpre]; rfl
    exact versionLeB_of_not_lt (hmax pw hwm hew)

/-- Witness for `claim_c6` at a concrete input: a new major version
far beyond the current one is returned. -/
theorem claim_c6_witness :
    ∃ r rv, determineLatestVersion "1.0" .major ["9.0", "2.0"] = .ok r ∧
      r ∈ ["9.0", "2.0"] ∧ parseVersion r = some rv ∧ rv.isPrerelease = false ∧
      versionLeB ⟨"9.0", 0, [9, 0], none, none, none, none⟩ rv = true ∧
      ∀ w pw, w ∈ ["9.0", "2.0"] → parseVersion w = some pw →
        pw.isPrerelease = false → versionLeB pw rv = true :=
  claim_c6 "1.0" ⟨"1.0", 0, [1, 0], none, none, none, none⟩ ["9.0", "2.0"]
    "9.0" ⟨"9.0", 0, [9, 0], none, none, none, none⟩ rfl (by simp) rfl rfl

/-- Claim C7: unparsable strings in the known-version set are dropped
silently before any filtering — the resolver behaves identically on
the set and on its parseable subset (so their presence alone never
causes a raise), and a returned result is always a parseable member of
the input set.  The concrete instance shows `"not-a-version"` being
ignored. -/
theorem claim_c7 :
    (∀ (cur : String) (target : Target) (versions : List String),
      determineLatestVersion cur target versions =
        determineLatestVersion cur target
          (versions.filter fun s => (parseVersion s).isSome)) ∧
    (∀ (cur : String) (target : Target) (versions : List String) (r : String),
      determineLatestVersion cur target versions = .ok r →
        r ∈ versions ∧ (parseVersion r).isSome = true) ∧
    determineLatestVersion "1.0" .major ["not-a-version", "1.1"] = .ok "1.1" := by
  refine ⟨?_, ?_, by rfl⟩
  · intro cur target versions
    cases hcv : parseVersion cur
    · unfold determineLatestVersion
      rw [hcv]
    · rename_i cv
      rw [determineLatest_eq_of_parse hcv, determineLatest_eq_of_parse hcv,
        resolveCands_eq, resolveCands_eq, filterMap_parse_filter]
  · intro cur target versions r h
    cases hcv : parseVersion cur
    · rw [determineLatestVersion, hcv] at h; cases h
    · rename_i cv
      rw [determineLatest_eq_of_parse hcv] at h
      cases hm : maxVersion (resolveCands cv target versions) <;> rw [hm] at h
      · cases h
      · rename_i m
        injection h with h
        subst h
        obtain ⟨hmem, hparse⟩ := mem_filterMap_parse (resolveCands_sub (maxVersion_spec hm).1)
        exact ⟨hmem, by rw [hparse]; rfl⟩

/-- Witness for `claim_c7` at a concrete input. -/
theorem claim_c7_witness :
    determineLatestVersion "1.0" .major ["not-a-version", "1.1"] =
      determineLatestVersion "1.0" .major ["1.1"] ∧
    ("1.1" ∈ ["not-a-version", "1.1"] ∧ (parseVersion "1.1").isSome = true) := by
  constructor
  · exact (claim_c7.1 "1.0" .major ["not-a-version", "1.1"]).trans (by rfl)
  · exact claim_c7.2.1 "1.0" .major ["not-a-version", "1.1"] "1.1" (by rfl)

/-- With a non-empty ceiling prefix, eligibility is "not a prerelease
and strictly below the incremented-prefix ceiling". -/
theorem eligibleB_ceiling {cv : PyVersion} {target : Target}
    (hne : (cv.release.take (SEMVER target)).isEmpty = false) (x : PyVersion) :
    eligibleB cv target x =
      (!x.isPrerelease &&
        versionLtB x (mkCeiling (incLast (cv.release.take (SEMVER target))))) := by
  simp [eligibleB, ceilingOf, hne]

/-- Claim C1, counterexample: `"2.6.0rc1"` is parseable and strictly
below the minor-target ceiling `3` built from current `"2.5.3"`, and
it is strictly above `"2.5.4"` — yet the resolver returns `"2.5.4"`,
not the maximum parseable known version strictly below the ceiling
(the prerelease is filtered out first). -/
theorem claim_c1_counterexample :
    determineLatestVersion "2.5.3" .minor ["2.6.0rc1", "2.5.4"] = .ok "2.5.4" ∧
    (∃ p q, parseVersion "2.6.0rc1" = some p ∧ parseVersion "2.5.4" = some q ∧
      versionLtB p (mkCeiling [3]) = true ∧ versionLtB q p = true) := by
  refine ⟨rfl, ⟨"2.6.0rc1", 0, [2, 6, 0], some (.rc, 1), none, none, none⟩,
    ⟨"2.5.4", 0, [2, 5, 4], none, none, none, none⟩, rfl, rfl, rfl, rfl⟩

/-- Claim C1 as amended: for a current version with at least
targetField-many release components and target `minor` or `patch`,
the resolver builds the exclusive ceiling by incrementing the last
element of the release prefix of length {minor: 1, patch: 2}, and —
whenever at least one parseable non-prerelease known version lies
strictly below that ceiling — returns a known version that is
parseable, not a prerelease, strictly below the ceiling, and an upper
bound of all such versions.  The spec's two worked examples hold, the
ceiling itself being excluded. -/
theorem claim_c1_amended :
    (∀ (cur : String) (cv : PyVersion) (target : Target) (versions : List String)
        (v : String) (pv : PyVersion),
      parseVersion cur = some cv →
      (target = .minor ∨ target = .patch) →
      SEMVER target ≤ cv.release.length →
      v ∈ versions → parseVersion v = some pv → pv.isPrerelease = false →
      versionLtB pv (mkCeiling (incLast (cv.release.take (SEMVER target)))) = true →
      ∃ r rv, determineLatestVersion cur target versions = .ok r ∧
        r ∈ versions ∧ parseVersion r = some rv ∧ rv.isPrerelease = false ∧
        versionLtB rv (mkCeiling (incLast (cv.release.take (SEMVER target)))) = true ∧
        ∀ w pw, w ∈ versions → parseVersion w = some pw → pw.isPrerelease = false →
          versionLtB pw (mkCeiling (incLast (cv.release.take (SEMVER target)))) = true →
          versionLeB pw rv = true) ∧
    determineLatestVersion "2.5.3" .minor ["2.5.4", "2.6.0", "3.0.0"] = .ok "2.6.0" ∧
    determineLatestVersion "2.5.3" .patch ["2.5.4", "2.5.10", "2.6.0"] = .ok "2.5.10" := by
  refine ⟨?_, by rfl, by rfl⟩
  intro cur cv target versions v pv hcv htgt hlen hv hpv hpre hlt
  have hkpos : 1 ≤ SEMVER target := by
    rcases htgt with rfl | rfl <;> simp [SEMVER]
  have hne : (cv.release.take (SEMVER target)).isEmpty = false := by
    cases hte : (cv.release.take (SEMVER target)).isEmpty
    · rfl
    · exfalso
      have : cv.release.take (SEMVER target) = [] := by
        simpa using hte
      rcases List.take_eq_nil_iff.mp this with h0 | h0
      · omega
      · rw [h0] at hlen
        simp at hlen
        omega
  have hmem : pv ∈ versions.filterMap parseVersion :=
    List.mem_filterMap.mpr ⟨v, hv, hpv⟩
  have he : eligibleB cv target pv = true := by
    rw [eligibleB_ceiling hne, hpre, hlt]; rfl
  obtain ⟨m, hok, hmm, hem, hmax⟩ := determineLatest_ok hcv hmem he
  obtain ⟨hraw_mem, hraw_parse⟩ := mem_filterMap_parse hmm
  rw [eligibleB_ceiling hne] at hem
  simp only [Bool.and_eq_true] at hem
  obtain ⟨hmpre', hmlt⟩ := hem
  have hmpre : m.isPrerelease = false := by
    cases hmp : m.isPrerelease
    · rfl
    · rw [hmp] at hmpre'; cases hmpre'
  refine ⟨m.raw, m, hok, hraw_mem, hraw_parse, hmpre, hmlt, ?_⟩
  intro w pw hw hpw hpwpre hpwlt
  have hwm : pw ∈ versions.filterMap parseVersion :=
    List.mem_filterMap.mpr ⟨w, hw, hpw⟩
  have hew : eligibleB cv target pw = true := by
    rw [eligibleB_ceiling hne, hpwpre, hpwlt]; rfl
  exact versionLeB_of_not_lt (hmax pw hwm hew)

/-- Witness for `claim_c1_amended` on the spec's minor example. -/
theorem claim_c1_amended_witness :
    ∃ r rv,
      determineLatestVersion "2.5.3" .minor ["2.5.4", "2.6.0", "3.0.0"] = .ok r ∧
      r ∈ ["2.5.4", "2.6.0", "3.0.0"] ∧ parseVersion r = some rv ∧
      rv.isPrerelease = false ∧
      versionLtB rv (mkCeiling (incLast (([2, 5, 3] : List Nat).take (SEMVER .minor)))) = true ∧
      ∀ w pw, w ∈ ["2.5.4", "2.6.0", "3.0.0"] → parseVersion w = some pw →
        pw.isPrerelease = false →
        versionLtB pw (mkCeiling (incLast (([2, 5, 3] : List Nat).take (SEMVER .minor)))) = true →
        versionLeB pw rv = true :=
  claim_c1_amended.1 "2.5.3" ⟨"2.5.3", 0, [2, 5, 3], none, none, none, none⟩ .minor
    ["2.5.4", "2.6.0", "3.0.0"] "2.6.0" ⟨"2.6.0", 0, [2, 6, 0], none, none, none, none⟩
    rfl (Or.inl rfl) (by simp [SEMVER]) (by simp) rfl rfl rfl

/-! ## Zero-padded release order, as the specification words it -/

/-- Pad a release vector with trailing zeros to length `n` (refinement
definition following the specification's words, to be compared with
the code's comparison key). -/
def padZeros (l : List Nat) (n : Nat) : List Nat :=
  l ++ List.replicate (n - l.length) 0

/-- Strict lexicographic order, used on equal-length padded vectors. -/
def lexLtB : List Nat → List Nat → Bool
  | [], _ => false
  | _ :: _, [] => false
  | a :: as, b :: bs => decide (a < b) || (decide (a = b) && lexLtB as bs)

/-- The specification's release comparison: pad both vectors with
trailing zeros to a common length, then compare lexicographically
componentwise. -/
def specReleaseLtB (a b : List Nat) : Bool :=
  lexLtB (padZeros a (max a.length b.length)) (padZeros b (max a.length b.length))

theorem zerosCmpRight_ne_gt : ∀ b, zerosCmpRight b ≠ .gt := by
  intro b
  induction b with
  | nil => simp [zerosCmpRight]
  | cons y ys ih =>
    show (if y = 0 then zerosCmpRight ys else .lt) ≠ .gt
    by_cases hy : y = 0
    · rw [if_pos hy]; exact ih
    · rw [if_neg hy]; simp

theorem lexLtB_pad_self : ∀ a, lexLtB a (List.replicate a.length 0) = false := by
  intro a
  induction a with
  | nil => rfl
  | cons x xs ih =>
    rw [List.length_cons, List.replicate_succ]
    show (decide (x < 0) || (decide (x = 0) && lexLtB xs (List.replicate xs.length 0))) = false
    rw [ih]
    simp

theorem zeros_lexLtB : ∀ b, lexLtB (List.replicate b.length 0) b = true ↔
    zerosCmpRight b = .lt := by
  intro b
  induction b with
  | nil => simp [lexLtB, zerosCmpRight, List.replicate]
  | cons y ys ih =>
    rw [List.length_cons, List.replicate_succ]
    show (decide (0 < y) || (decide (0 = y) && lexLtB (List.replicate ys.length 0) ys)) = true ↔
      (if y = 0 then zerosCmpRight ys else .lt) = .lt
    by_cases hy : y = 0
    · subst hy
      rw [if_pos rfl]
      simpa using ih
    · rw [if_neg hy]
      have h0y : 0 < y := by omega
      simp [h0y, hy]

theorem padZeros_self (l : List Nat) : padZeros l l.length = l := by
  simp [padZeros]

theorem padZeros_cons (x : Nat) (xs : List Nat) (n : Nat) :
    padZeros (x :: xs) (n + 1) = x :: padZeros xs n := by
  unfold padZeros
  rw [List.length_cons, List.cons_append, Nat.succ_sub_succ]

/-- The specification's padded comparison agrees with the
componentwise missing-is-zero comparison. -/
theorem specReleaseLtB_iff : ∀ (a b : List Nat),
    specReleaseLtB a b = true ↔ relCmp a b = .lt := by
  intro a
  induction a with
  | nil =>
    intro b
    show lexLtB (padZeros [] (max 0 b.length)) (padZeros b (max 0 b.length)) = true ↔
      zerosCmpRight b = .lt
    rw [Nat.zero_max,
      show padZeros [] b.length = List.replicate b.length 0 by simp [padZeros],
      padZeros_self]
    exact zeros_lexLtB b
  | cons x xs ih =>
    intro b
    cases b with
    | nil =>
      have h1 : relCmp (x :: xs) [] ≠ .lt := by
        show (zerosCmpRight (x :: xs)).swap ≠ .lt
        cases hz : zerosCmpRight (x :: xs)
        · simp [Ordering.swap]
        · simp [Ordering.swap]
        · exact absurd hz (zerosCmpRight_ne_gt _)
      have h2 : specReleaseLtB (x :: xs) [] = false := by
        unfold specReleaseLtB
        rw [show ((x :: xs).length ⊔ ([] : List Nat).length) = (x :: xs).length by simp,
          padZeros_self,
          show padZeros [] (x :: xs).length = List.replicate (x :: xs).length 0 by
            simp [padZeros]]
        exact lexLtB_pad_self (x :: xs)
      rw [h2]
      simp [h1]
    | cons y ys =>
      have hmax : max (x :: xs).length (y :: ys).length = max xs.length ys.length + 1 := by
        simp [List.length_cons]
        omega
      show specReleaseLtB (x :: xs) (y :: ys) = true ↔
        (natCmp x y).then (relCmp xs ys) = .lt
      unfold specReleaseLtB
      rw [hmax, padZeros_cons, padZeros_cons, then_eq_lt]
      show (decide (x < y) ||
        (decide (x = y) && lexLtB (padZeros xs (max xs.length ys.length))
          (padZeros ys (max xs.length ys.length)))) = true ↔ _
      simp only [Bool.or_eq_true, Bool.and_eq_true, decide_eq_true_eq]
      constructor
      · rintro (h | ⟨h, h2⟩)
        · exact Or.inl (natCmp_lt_of h)
        · exact Or.inr ⟨natCmp_eq_of h, (ih ys).mp h2⟩
      · rintro (h | ⟨h, h2⟩)
        · exact Or.inl (natCmp_eq_lt.mp h)
        · exact Or.inr ⟨natCmp_eq_eq.mp h, (ih ys).mpr h2⟩

/-- For versions with no segments other than the release, the whole
comparison key reduces to the release comparison. -/
theorem vkeyCmp_simple {va vb : PyVersion}
    (hea : va.epoch = 0) (heb : vb.epoch = 0)
    (hpra : va.pre = none) (hprb : vb.pre = none)
    (hpoa : va.post = none) (hpob : vb.post = none)
    (hdva : va.dev = none) (hdvb : vb.dev = none)
    (hla : va.localSegs = none) (hlb : vb.localSegs = none) :
    vkeyCmp (keyOf va) (keyOf vb) = relCmp va.release vb.release := by
  rw [vkeyCmp_expand, hea, heb, natCmp_eq_of rfl, lex_trim_eq_relCmp]
  have hpa : preKeyOf va = some none := by
    simp [preKeyOf, hpra, hpoa, hdva]
  have hpb : preKeyOf vb = some none := by
    simp [preKeyOf, hprb, hpob, hdvb]
  rw [hpa, hpb, hpoa, hpob, hdva, hdvb, hla, hlb]
  cases relCmp va.release vb.release <;> rfl

/-- Claim C8, counterexample: `parse("1.2rc1") < parse("1.2")` holds
although the two release vectors are equal, so the claimed
equivalence with the zero-padded release-vector order fails for
pre-release strings. -/
theorem claim_c8_counterexample :
    ∃ va vb, parseVersion "1.2rc1" = some va ∧ parseVersion "1.2" = some vb ∧
      versionLtB va vb = true ∧ va.release = vb.release ∧
      specReleaseLtB va.release vb.release = false :=
  ⟨⟨"1.2rc1", 0, [1, 2], some (.rc, 1), none, none, none⟩,
    ⟨"1.2", 0, [1, 2], none, none, none, none⟩, rfl, rfl, rfl, rfl, rfl⟩

/-- Claim C8 as amended: for version strings that parse to plain
releases (no epoch, pre, post, dev or local segment),
`parse(a) < parse(b)` holds iff the release vectors compare less
lexicographically with missing trailing components treated as 0 —
independent of raw formatting, e.g. `"1.2"` vs `"1.2.0"`.  With such
segments present, `packaging`'s full PEP 440 order refines the
release order instead. -/
theorem claim_c8_amended (a b : String) (va vb : PyVersion)
    (ha : parseVersion a = some va) (hb : parseVersion b = some vb)
    (hea : va.epoch = 0) (heb : vb.epoch = 0)
    (hpra : va.pre = none) (hprb : vb.pre = none)
    (hpoa : va.post = none) (hpob : vb.post = none)
    (hdva : va.dev = none) (hdvb : vb.dev = none)
    (hla : va.localSegs = none) (hlb : vb.localSegs = none) :
    versionLtB va vb = specReleaseLtB va.release vb.release := by
  have hk := vkeyCmp_simple hea heb hpra hprb hpoa hpob hdva hdvb hla hlb
  unfold versionLtB
  rw [hk]
  cases hr : relCmp va.release vb.release
  · exact ((specReleaseLtB_iff _ _).mpr hr).symm
  · cases hs : specReleaseLtB va.release vb.release
    · rfl
    · rw [(specReleaseLtB_iff _ _).mp hs] at hr; cases hr
  · cases hs : specReleaseLtB va.release vb.release
    · rfl
    · rw [(specReleaseLtB_iff _ _).mp hs] at hr; cases hr

/-- Witness for `claim_c8_amended`: `"1.2"` vs `"1.2.0"` (neither is
below the other; the vectors are padded-equal). -/
theorem claim_c8_amended_witness :
    versionLtB ⟨"1.2", 0, [1, 2], none, none, none, none⟩
        ⟨"1.2.0", 0, [1, 2, 0], none, none, none, none⟩ =
      specReleaseLtB
        (PyVersion.release ⟨"1.2", 0, [1, 2], none, none, none, none⟩)
        (PyVersion.release ⟨"1.2.0", 0, [1, 2, 0], none, none, none, none⟩) :=
  claim_c8_amended "1.2" "1.2.0" _ _ rfl rfl rfl rfl rfl rfl rfl rfl rfl rfl rfl rfl

/-! ## Extraction claims -/

/-- Claim C4, counterexample: on the claim's single-line example the
pattern matches exactly once — the greedy `(.*)` spans both
declarations — so `extractUnique` returns that spanning value instead
of raising `AmbiguousAttribute`. -/
theorem claim_c4_counterexample :
    getUniqueValue "pname" "pname = \"foo\"; pname = \"bar\";" =
      .ok "foo\"; pname = \"bar" := rfl

/-- Claim C4 as amended: `extractUnique` raises `AmbiguousAttribute`
when the pattern matches more than once and `MissingAttribute` when it
matches zero times; but on the claim's single-line example the greedy
group yields a single match spanning both declarations, which is
returned.  With the two declarations on separate lines (the dot cannot
cross a newline) the call does raise `AmbiguousAttribute`, and the
`MissingAttribute` example holds as claimed. -/
theorem claim_c4_amended :
    (∀ (a t : String), 2 ≤ (getValues a t).length →
      getUniqueValue a t = .error .tooMany) ∧
    (∀ (a t : String), (getValues a t).length = 0 →
      getUniqueValue a t = .error .noValue) ∧
    getUniqueValue "pname" "pname = \"foo\"; pname = \"bar\";" =
      .ok "foo\"; pname = \"bar" ∧
    getUniqueValue "pname" "pname = \"foo\";\npname = \"bar\";" = .error .tooMany ∧
    getUniqueValue "pname" "other = \"x\";" = .error .noValue := by
  refine ⟨?_, ?_, rfl, rfl, rfl⟩
  · intro a t h
    unfold getUniqueValue
    cases hv : getValues a t with
    | nil => rw [hv] at h; simp at h
    | cons x xs =>
      cases xs with
      | nil => rw [hv] at h; simp at h
      | cons y ys => rfl
  · intro a t h
    unfold getUniqueValue
    cases hv : getValues a t with
    | nil => rfl
    | cons x xs => rw [hv] at h; simp at h

/-- Witness for `claim_c4_amended` at a concrete input. -/
theorem claim_c4_amended_witness :
    getUniqueValue "version" "version = \"1\";\nversion = \"2\";" = .error .tooMany :=
  claim_c4_amended.1 "version" "version = \"1\";\nversion = \"2\";" (by decide)

theorem dropLit_sound : ∀ (a s s1 : List Char), dropLit a s = some s1 →
    s = a ++ s1 := by
  intro a
  induction a with
  | nil =>
    intro s s1 h
    injection h
  | cons x xs ih =>
    intro s s1 h
    cases s with
    | nil => cases h
    | cons c cs =>
      replace h : (if c = x then dropLit xs cs else none) = some s1 := h
      by_cases hc : c = x
      · rw [if_pos hc] at h
        subst hc
        rw [List.cons_append]
        exact congrArg (c :: ·) (ih cs s1 h)
      · rw [if_neg hc] at h
        cases h

theorem greedyValue_sound : ∀ (s g r : List Char), greedyValue s = some (g, r) →
    s = g ++ '"' :: ';' :: r := by
  intro s
  induction s with
  | nil => intro g r h; cases h
  | cons c cs ih =>
    intro g r h
    replace h : orElseO
        (if c = '\n' then none
         else (greedyValue cs).map fun p => (c :: p.1, p.2))
        (if c = '"' then
          match cs with
          | ';' :: rest => some ([], rest)
          | _ => none
        else none) = some (g, r) := h
    unfold orElseO at h
    split at h
    · rename_i res hres
      injection h with h
      subst h
      by_cases hc : c = '\n'
      · rw [if_pos hc] at hres; cases hres
      · rw [if_neg hc] at hres
        cases hg : greedyValue cs <;> rw [hg] at hres
        · cases hres
        · rename_i p
          simp only [Option.map_some'] at hres
          injection hres with hres
          cases hres
          rw [List.cons_append]
          exact congrArg (c :: ·) (ih p.1 p.2 hg)
    · rename_i hres
      by_cases hc : c = '"'
      · rw [if_pos hc] at h
        subst hc
        split at h
        · rename_i rest
          injection h with h
          cases h
          rfl
        · cases h
      · rw [if_neg hc] at h
        cases h

/-- Claim C10: a declaration is matched only when at least one
whitespace character stands between the attribute name and `=` and
between `=` and the opening quote: every successful position match
decomposes the text with two non-empty all-whitespace runs, and the
no-space text `pname="x";` produces zero matches, so `extractUnique`
raises `MissingAttribute` on it. -/
theorem claim_c10 :
    (∀ (a s g r : List Char), matchAttrAt a s = some (g, r) →
      ∃ w1 w2, w1 ≠ [] ∧ w2 ≠ [] ∧ (∀ c ∈ w1, isPySpace c = true) ∧
        (∀ c ∈ w2, isPySpace c = true) ∧
        s = a ++ (w1 ++ '=' :: (w2 ++ '"' :: (g ++ '"' :: ';' :: r)))) ∧
    getValues "pname" "pname=\"x\";" = [] ∧
    getUniqueValue "pname" "pname=\"x\";" = .error .noValue := by
  refine ⟨?_, rfl, rfl⟩
  intro a s g r h
  unfold matchAttrAt at h
  split at h
  · cases h
  · rename_i s1 hd
    split at h
    · cases h
    · rename_i hw1
      split at h
      · rename_i s3 hs2
        split at h
        · cases h
        · rename_i hw2
          split at h
          · rename_i s5 hs4
            have hg := greedyValue_sound s5 g r h
            refine ⟨s1.takeWhile isPySpace, s3.takeWhile isPySpace, ?_, ?_, ?_, ?_, ?_⟩
            · intro hh
              exact hw1 (by rw [hh]; rfl)
            · intro hh
              exact hw2 (by rw [hh]; rfl)
            · intro c hcmem
              exact List.mem_takeWhile_imp hcmem
            · intro c hcmem
              exact List.mem_takeWhile_imp hcmem
            · have e1 : s = a ++ s1 := dropLit_sound a s s1 hd
              have e2 : s1 = s1.takeWhile isPySpace ++ '=' :: s3 := by
                conv_lhs => rw [← List.takeWhile_append_dropWhile (p := isPySpace) (l := s1)]
                rw [hs2]
              have e3 : s3 = s3.takeWhile isPySpace ++ '"' :: s5 := by
                conv_lhs => rw [← List.takeWhile_append_dropWhile (p := isPySpace) (l := s3)]
                rw [hs4]
              have e3g : s3 = s3.takeWhile isPySpace ++ '"' :: (g ++ '"' :: ';' :: r) :=
                e3.trans (congrArg (fun l => s3.takeWhile isPySpace ++ '"' :: l) hg)
              have e2g : s1 = s1.takeWhile isPySpace ++ '=' ::
                  (s3.takeWhile isPySpace ++ '"' :: (g ++ '"' :: ';' :: r)) :=
                e2.trans (congrArg (fun l => s1.takeWhile isPySpace ++ '=' :: l) e3g)
              exact e1.trans (congrArg (fun l => a ++ l) e2g)
          · cases h
      · cases h

/-- Witness for `claim_c10` at a concrete successful match. -/
theorem claim_c10_witness :
    ∃ w1 w2, w1 ≠ [] ∧ w2 ≠ [] ∧ (∀ c ∈ w1, isPySpace c = true) ∧
      (∀ c ∈ w2, isPySpace c = true) ∧
      ('p' :: 'n' :: 'a' :: 'm' :: 'e' :: ' ' :: '=' :: ' ' :: '"' :: 'x' :: '"' :: ';' :: []) =
        ('p' :: 'n' :: 'a' :: 'm' :: 'e' :: []) ++
          (w1 ++ '=' :: (w2 ++ '"' :: (('x' :: []) ++ '"' :: ';' :: []))) :=
  claim_c10.1 ('p' :: 'n' :: 'a' :: 'm' :: 'e' :: [])
    ('p' :: 'n' :: 'a' :: 'm' :: 'e' :: ' ' :: '=' :: ' ' :: '"' :: 'x' :: '"' :: ';' :: [])
    ('x' :: []) [] rfl

/-! ## Pipeline claims -/

/-- Reduction of `_print_new_version` once extraction and the PyPI
check are known to succeed. -/
theorem printNewVersion_reduced {text : String} {target : Target}
    {registry : String → Option (List String)} {drvNames : List String}
    {pname declared resolved : String}
    (hp : getUniqueValue "pname" text = .ok pname)
    (hd : getUniqueValue "version" text = .ok declared)
    (hcp : checkPypi registry pname declared target = .ok resolved) :
    printNewVersion text target registry drvNames =
      printClassify pname declared resolved drvNames := by
  have h1 : printNewVersion text target registry drvNames =
      printCheckStage pname declared target registry drvNames := by
    unfold printNewVersion
    rw [hp, hd]
  rw [h1]
  unfold printCheckStage
  rw [hcp]

/-- Further reduction when the resolved and declared strings differ
and both parse. -/
theorem printNewVersion_reduced2 {text : String} {target : Target}
    {registry : String → Option (List String)} {drvNames : List String}
    {pname declared resolved : String} {rv dv : PyVersion}
    (hp : getUniqueValue "pname" text = .ok pname)
    (hd : getUniqueValue "version" text = .ok declared)
    (hcp : checkPypi registry pname declared target = .ok resolved)
    (hrv : parseVersion resolved = some rv)
    (hdv : parseVersion declared = some dv)
    (hne : resolved ≠ declared) :
    printNewVersion text target registry drvNames =
      (if versionLeB rv dv then .error .downgrade
       else
        if (stripLastDashPart (subprocessGrep drvNames (pname ++ "-" ++ declared))).length = 0
        then .ok none
        else .ok (some (stripLastDashPart (subprocessGrep drvNames (pname ++ "-" ++ declared)) ++
          " " ++ declared ++ " " ++ resolved ++ " " ++ PYPI_PACKAGE_URL ++ "/" ++ pname ++ "/"))) := by
  rw [printNewVersion_reduced hp hd hcp]
  unfold printClassify
  rw [if_neg hne, hrv, hdv]

/-- Claim C5, counterexample: the resolver returns `"1.2.0"` for
declared `"1.2"` — equal as VersionValues — yet the pipeline raises
the downgrade error instead of yielding NoOp: the NoOp test compares
raw strings, and the downgrade test uses `<=`, which VersionValue
equality satisfies. -/
theorem claim_c5_counterexample :
    printNewVersion "pname = \"foo\";\nversion = \"1.2\";\n" .major
      (fun _ => some ["1.2.0"]) [] = .error .downgrade ∧
    (∃ rv dv, parseVersion "1.2.0" = some rv ∧ parseVersion "1.2" = some dv ∧
      versionEqB rv dv = true) := by
  refine ⟨rfl, ⟨"1.2.0", 0, [1, 2, 0], none, none, none, none⟩,
    ⟨"1.2", 0, [1, 2], none, none, none, none⟩, rfl, rfl, rfl⟩

/-- Claim C5 as amended: after successful extraction, fetch and
resolution, the pipeline yields NoOp exactly when the resolved string
equals the declared string; it yields Failed(Downgrade) exactly when
the strings differ and the resolved version is less than *or equal
to* the declared version in VersionValue order (so VersionValue-equal
but textually different versions are reported as downgrades, not
NoOp); otherwise it continues to identifier resolution (NoOp when the
inventory has no match, a report line otherwise). -/
theorem claim_c5_amended (text : String) (target : Target)
    (registry : String → Option (List String)) (drvNames : List String)
    (ks : List String) (pname declared resolved : String) (rv dv : PyVersion)
    (hp : getUniqueValue "pname" text = .ok pname)
    (hd : getUniqueValue "version" text = .ok declared)
    (hreg : registry pname = some ks)
    (hres : determineLatestVersion declared target ks = .ok resolved)
    (hrv : parseVersion resolved = some rv)
    (hdv : parseVersion declared = some dv) :
    (resolved = declared → printNewVersion text target registry drvNames = .ok none) ∧
    (resolved ≠ declared → versionLeB rv dv = true →
      printNewVersion text target registry drvNames = .error .downgrade) ∧
    (resolved ≠ declared → versionLeB rv dv = false →
      (printNewVersion text target registry drvNames = .ok none ∨
        ∃ l, printNewVersion text target registry drvNames = .ok (some l))) := by
  have hcp : checkPypi registry pname declared target = .ok resolved := by
    have h1 : checkPypi registry pname declared target =
        checkPypiWithVersions declared target ks := by
      unfold checkPypi
      rw [hreg]
    rw [h1]
    unfold checkPypiWithVersions
    rw [hres]
  refine ⟨?_, ?_, ?_⟩
  · intro heq
    rw [printNewVersion_reduced hp hd hcp]
    unfold printClassify
    rw [if_pos heq]
  · intro hne hle
    rw [printNewVersion_reduced2 hp hd hcp hrv hdv hne, if_pos hle]
  · intro hne hle
    rw [printNewVersion_reduced2 hp hd hcp hrv hdv hne, if_neg (by rw [hle]; simp)]
    by_cases hlen :
        (stripLastDashPart (subprocessGrep drvNames (pname ++ "-" ++ declared))).length = 0
    · rw [if_pos hlen]
      exact Or.inl rfl
    · rw [if_neg hlen]
      exact Or.inr ⟨_, rfl⟩

/-- Witness for `claim_c5_amended` at a concrete input (an actual
update from `1.0` to `1.1` with an inventory line `foo-1.0`). -/
theorem claim_c5_amended_witness :
    ("1.1" = "1.0" →
      printNewVersion "pname = \"foo\";\nversion = \"1.0\";\n" .major
        (fun _ => some ["1.0", "1.1"]) ["foo-1.0"] = .ok none) ∧
    ("1.1" ≠ "1.0" →
      versionLeB ⟨"1.1", 0, [1, 1], none, none, none, none⟩
        ⟨"1.0", 0, [1, 0], none, none, none, none⟩ = true →
      printNewVersion "pname = \"foo\";\nversion = \"1.0\";\n" .major
        (fun _ => some ["1.0", "1.1"]) ["foo-1.0"] = .error .downgrade) ∧
    ("1.1" ≠ "1.0" →
      versionLeB ⟨"1.1", 0, [1, 1], none, none, none, none⟩
        ⟨"1.0", 0, [1, 0], none, none, none, none⟩ = false →
      (printNewVersion "pname = \"foo\";\nversion = \"1.0\";\n" .major
        (fun _ => some ["1.0", "1.1"]) ["foo-1.0"] = .ok none ∨
       ∃ l, printNewVersion "pname = \"foo\";\nversion = \"1.0\";\n" .major
        (fun _ => some ["1.0", "1.1"]) ["foo-1.0"] = .ok (some l))) :=
  claim_c5_amended "pname = \"foo\";\nversion = \"1.0\";\n" .major
    (fun _ => some ["1.0", "1.1"]) ["foo-1.0"] ["1.0", "1.1"] "foo" "1.0" "1.1"
    ⟨"1.1", 0, [1, 1], none, none, none, none⟩
    ⟨"1.0", 0, [1, 0], none, none, none, none⟩ rfl rfl rfl rfl rfl rfl

/-- Concrete batch input for the summary-count evaluation: one
package file whose declared version is already the latest. -/
def c3decl : String := "pname = \"foo\";\nversion = \"1.0\";\n"

def c3fileSys : FileSystem :=
  ⟨fun _ => false, fun p => p == "pkg.nix", fun _ => c3decl⟩

def c3registry : String → Option (List String) := fun _ => some ["1.0"]

/-- Claim C3: evaluation of the batch summary at a failing input.  A
single package that is already at its latest version (outcome NoOp,
no report line emitted) is nevertheless counted: the log reports
"Checked 1 packages, 1 updated" although zero report lines were
printed — `_update` returns `True` on every non-`ValueError` path and
`main` sums those `True`s as the "updated" count. -/
theorem claim_c3_bug_eval :
    runBatch c3fileSys .major c3registry [] ["pkg.nix"] = [.completed none] ∧
    mainChecked c3fileSys .major c3registry [] ["pkg.nix"] = 1 ∧
    mainUpdatedCount c3fileSys .major c3registry [] ["pkg.nix"] = 1 ∧
    reportLines c3fileSys .major c3registry [] ["pkg.nix"] = [] := by
  refine ⟨by decide, by decide, by decide, by decide⟩

/-- Claim C9: outcome isolation and exit status.  The batch produces
exactly one outcome per input package, the outcome at position `i`
depends only on package `i` (so one package's failure cannot abort or
alter another's processing), and the process exit status is 0
whatever the inputs — all per-package errors are caught at the
`_update` boundary. -/
theorem claim_c9 (fs : FileSystem) (target : Target)
    (registry : String → Option (List String)) (drvNames : List String)
    (packages : List String) :
    (runBatch fs target registry drvNames packages).length = packages.length ∧
    (∀ i, (runBatch fs target registry drvNames packages).get? i =
      (packages.get? i).map (processPackage fs target registry drvNames)) ∧
    mainExitStatus fs target registry drvNames packages = 0 := by
  refine ⟨List.length_map _ _, ?_, rfl⟩
  intro i
  simp [runBatch, List.get?_eq_getElem?, List.getElem?_map]

end PypiReleases
